import Mathlib

/-!
Verification development for the click-align alignment enforcer
(`tools/click-align/click-align.cc`).

The engine (`struct RouterAlign`), the element-class factory
(`class_factory`) and the six rewrite phases of `main` are translated
from the source file.  The alignment lattice (`alignment.hh`), the
behavior-rule classes (`alignclass.cc`) and the graph mutation interface
(`routert.hh`) are not part of the translated sources and are modelled
from the specification; each such definition is marked in its doc
comment.
-/

/-- Modelled from the spec: the alignment lattice value, the constraint
"address ≡ offset (mod chunk)" (class `Alignment` of `alignment.hh`,
which is not under src/).  The engine treats `chunk < 2` as the
distinguished value "bad". -/
structure AlignmentT where
  chunk : Nat
  offset : Nat
deriving DecidableEq

/-- The canonical bad alignment (chunk < 2 means no usable constraint). -/
def badA : AlignmentT := ⟨1, 0⟩

/-- Modelled from the spec: `Alignment::bad()`, true when chunk < 2. -/
def AlignmentT.bad (a : AlignmentT) : Bool := decide (a.chunk < 2)

/-- Modelled from the spec: `compatible(have, want)`, written `have <= want`:
true if want is bad, or if have is not bad, have.chunk is a multiple of
want.chunk, and have.offset mod want.chunk equals want.offset. -/
def AlignmentT.compat (h w : AlignmentT) : Bool :=
  w.bad || (!h.bad && (h.chunk % w.chunk == 0) && (h.offset % w.chunk == w.offset))

/-- Modelled from the spec: the chunk-halving search used by the weaken
join — shrink the chunk by halving until the two offsets agree modulo
the chunk, giving up at chunk 1 (which the engine treats as bad).  The
first argument is structural fuel, initially the starting chunk, which
bounds the number of halvings. -/
def commonChunk : Nat → Nat → Nat → Nat → Nat
  | 0, _, _, _ => 1
  | f + 1, c, x, y =>
    if c ≤ 1 then c
    else if x % c == y % c then c
    else commonChunk f (c / 2) x y

/-- Modelled from the spec: `weaken` (`operator|=`), the join combining
several upstream guarantees: bad is the identity; otherwise the chunk is
shrunk by halving from the smaller chunk until both offsets agree
modulo it. -/
def AlignmentT.weaken (a b : AlignmentT) : AlignmentT :=
  if a.bad then b
  else if b.bad then a
  else
    let c := commonChunk (min a.chunk b.chunk) (min a.chunk b.chunk) a.offset b.offset
    ⟨c, a.offset % c⟩

/-- Modelled from the spec: `strengthen` (`operator&=`), the meet
combining several downstream requirements: bad is the identity; two
non-bad operands whose offsets agree modulo the smaller chunk combine to
the stronger (larger-chunk) one, and conflicting offsets give bad. -/
def AlignmentT.strengthen (a b : AlignmentT) : AlignmentT :=
  if a.bad then b
  else if b.bad then a
  else if a.offset % min a.chunk b.chunk == b.offset % min a.chunk b.chunk then
    (if b.chunk ≤ a.chunk then a else b)
  else badA

/-- Modelled from the spec: shifting an alignment by a constant byte
offset k (mod chunk), used by the Shifter rule; bad is unchanged. -/
def AlignmentT.shift (a : AlignmentT) (k : Int) : AlignmentT :=
  if a.bad then a
  else ⟨a.chunk, (((a.offset : Int) + k) % (a.chunk : Int)).toNat⟩

/-- Modelled from the spec: an element of the graph.  `etype` is the
type name, `acfg` the parsed alignment configuration (used when the
type is Align), `ncfg` the parsed numeric configuration (used when the
type is Strip), `live` the liveness flag used by the dead-element
cleanup. -/
structure ElementT where
  name : String
  etype : String
  acfg : AlignmentT
  ncfg : Int
  live : Bool
deriving DecidableEq

/-- Default element used for out-of-range lookups. -/
def dElt : ElementT := ⟨"", "", badA, 0, false⟩

/-- Modelled from the spec: a directed connection from an
(element, output-port) pair to an (element, input-port) pair, with a
liveness flag (dead connections are logically removed). -/
structure ConnectionT where
  fromE : Nat
  fromP : Nat
  toE : Nat
  toP : Nat
  live : Bool
deriving DecidableEq

/-- Default connection used for out-of-range lookups; it is dead. -/
def deadConn : ConnectionT := ⟨0, 0, 0, 0, false⟩

/-- Modelled from the spec: the element graph — ordered elements and
connections. -/
structure RouterT where
  elements : List ElementT
  conns : List ConnectionT
deriving DecidableEq

/-- Number of input ports of element i, derived from the live
connections using them (as the flattened textual graph determines port
counts from the connections). -/
def RouterT.ninputs (g : RouterT) (i : Nat) : Nat :=
  g.conns.foldl (fun m c => if c.live && c.toE == i then max m (c.toP + 1) else m) 0

/-- Number of output ports of element i, derived from the live
connections using them. -/
def RouterT.noutputs (g : RouterT) (i : Nat) : Nat :=
  g.conns.foldl (fun m c => if c.live && c.fromE == i then max m (c.fromP + 1) else m) 0

/-- Type name of element i. -/
def RouterT.etypeAt (g : RouterT) (i : Nat) : String := (g.elements.getD i dElt).etype

/-- The loop of `RouterAlign::iindex_eindex` (and of `oindex_eindex`):
walk the per-element port counts, returning the index of the first
element whose cumulative port range contains the flat index, and -1
past the end.  `i0` is the running element index. -/
def iindexFindL : List Nat → Nat → Nat → Int
  | [], _, _ => -1
  | c :: t, ii, i0 => if ii < c then (i0 : Int) else iindexFindL t (ii - c) (i0 + 1)

/-- The loop of `RouterAlign::iindex_port` (and of `oindex_port`):
as `iindexFindL` but returning the offset of the flat index within the
owning element's port range. -/
def iportFindL : List Nat → Nat → Int
  | [], _ => -1
  | c :: t, ii => if ii < c then (ii : Int) else iportFindL t (ii - c)

/-- `RouterAlign::iindex_eindex`, over the engine's `_icount` vector. -/
def RouterAlign.iindex_eindex (icount : List Nat) (ii : Nat) : Int :=
  iindexFindL icount ii 0

/-- `RouterAlign::iindex_port`. -/
def RouterAlign.iindex_port (icount : List Nat) (ii : Nat) : Int :=
  iportFindL icount ii

/-- `RouterAlign::oindex_eindex`: the source iterates `_icount.size()`
elements while reading `_ooffset`, so the walked count list is `ocount`
truncated to `icount`'s length. -/
def RouterAlign.oindex_eindex (icount ocount : List Nat) (oi : Nat) : Int :=
  iindexFindL (ocount.take icount.length) oi 0

/-- `RouterAlign::oindex_port`. -/
def RouterAlign.oindex_port (icount ocount : List Nat) (oi : Nat) : Int :=
  iportFindL (ocount.take icount.length) oi

theorem iindexFindL_ge (l : List Nat) : ∀ (ii i0 : Nat), l.sum ≤ ii →
    iindexFindL l ii i0 = -1 := by
  induction l with
  | nil => intro ii i0 _; rfl
  | cons c t ih =>
    intro ii i0 h
    simp only [List.sum_cons] at h
    have hnc : ¬ ii < c := by omega
    simp only [iindexFindL, if_neg hnc]
    exact ih (ii - c) (i0 + 1) (by omega)

theorem iportFindL_ge (l : List Nat) : ∀ (ii : Nat), l.sum ≤ ii →
    iportFindL l ii = -1 := by
  induction l with
  | nil => intro ii _; rfl
  | cons c t ih =>
    intro ii h
    simp only [List.sum_cons] at h
    have hnc : ¬ ii < c := by omega
    simp only [iportFindL, if_neg hnc]
    exact ih (ii - c) (by omega)

theorem iindexFindL_lt (l : List Nat) : ∀ (ii i0 : Nat), ii < l.sum →
    ∃ i : Nat, i < l.length ∧ iindexFindL l ii i0 = ((i0 + i : Nat) : Int) ∧
      iportFindL l ii = ((ii - (l.take i).sum : Nat) : Int) ∧
      (l.take i).sum ≤ ii ∧ ii < (l.take (i + 1)).sum := by
  induction l with
  | nil => intro ii i0 h; simp at h
  | cons c t ih =>
    intro ii i0 h
    by_cases hc : ii < c
    · refine ⟨0, by simp, ?_, ?_, by simp, by simpa using hc⟩
      · simp [iindexFindL, hc]
      · simp [iportFindL, hc]
    · simp only [List.sum_cons] at h
      obtain ⟨i, hi, he, hp, hlo, hhi⟩ := ih (ii - c) (i0 + 1) (by omega)
      refine ⟨i + 1, by simpa using Nat.succ_lt_succ hi, ?_, ?_, ?_, ?_⟩
      · simp only [iindexFindL, if_neg hc]
        rw [he]; congr 1; omega
      · simp only [iportFindL, if_neg hc]
        rw [hp]; congr 1
        simp only [List.take_succ_cons, List.sum_cons]
        omega
      · simp only [List.take_succ_cons, List.sum_cons]; omega
      · simp only [List.take_succ_cons, List.sum_cons] at hhi ⊢; omega

/-- C10: for every flat input-port index at or past the engine's total
input-port count, `iindex_eindex` and `iindex_port` return -1, and
symmetrically for the output-port functions; for every in-range flat
index they return the owning element's index and the within-element
port number, the element's cumulative port range containing the flat
index. -/
theorem iindex_oindex_inverse (icount ocount : List Nat) (ii oi : Nat)
    (hlen : icount.length = ocount.length) :
    (icount.sum ≤ ii →
      RouterAlign.iindex_eindex icount ii = -1 ∧
      RouterAlign.iindex_port icount ii = -1) ∧
    (ii < icount.sum →
      ∃ i p : Nat, i < icount.length ∧
        RouterAlign.iindex_eindex icount ii = (i : Int) ∧
        RouterAlign.iindex_port icount ii = (p : Int) ∧
        (icount.take i).sum ≤ ii ∧ ii < (icount.take (i + 1)).sum ∧
        p = ii - (icount.take i).sum) ∧
    (ocount.sum ≤ oi →
      RouterAlign.oindex_eindex icount ocount oi = -1 ∧
      RouterAlign.oindex_port icount ocount oi = -1) ∧
    (oi < ocount.sum →
      ∃ i p : Nat, i < ocount.length ∧
        RouterAlign.oindex_eindex icount ocount oi = (i : Int) ∧
        RouterAlign.oindex_port icount ocount oi = (p : Int) ∧
        (ocount.take i).sum ≤ oi ∧ oi < (ocount.take (i + 1)).sum ∧
        p = oi - (ocount.take i).sum) := by
  have htake : ocount.take icount.length = ocount := by
    rw [hlen]; exact List.take_length ocount
  refine ⟨?_, ?_, ?_, ?_⟩
  · intro h
    exact ⟨iindexFindL_ge icount ii 0 h, iportFindL_ge icount ii h⟩
  · intro h
    obtain ⟨i, hi, he, hp, hlo, hhi⟩ := iindexFindL_lt icount ii 0 h
    exact ⟨i, ii - (icount.take i).sum, hi, by simpa using he, hp, hlo, hhi, rfl⟩
  · intro h
    refine ⟨?_, ?_⟩
    · unfold RouterAlign.oindex_eindex
      rw [htake]; exact iindexFindL_ge ocount oi 0 h
    · unfold RouterAlign.oindex_port
      rw [htake]; exact iportFindL_ge ocount oi h
  · intro h
    obtain ⟨i, hi, he, hp, hlo, hhi⟩ := iindexFindL_lt ocount oi 0 h
    refine ⟨i, oi - (ocount.take i).sum, hi, ?_, ?_, hlo, hhi, rfl⟩
    · unfold RouterAlign.oindex_eindex
      rw [htake]; simpa using he
    · unfold RouterAlign.oindex_port
      rw [htake]; exact hp

/-- Witness for C10 at a concrete engine layout. -/
theorem iindex_oindex_inverse_check :
    ([1, 0, 2] : List Nat).length = ([2, 1, 0] : List Nat).length ∧
    (([1, 0, 2] : List Nat).sum ≤ 7 →
      RouterAlign.iindex_eindex [1, 0, 2] 7 = -1 ∧
      RouterAlign.iindex_port [1, 0, 2] 7 = -1) := by
  refine ⟨by decide, ?_⟩
  exact (iindex_oindex_inverse [1, 0, 2] [2, 1, 0] 7 0 (by decide)).1

/-- Witness-for-later helper: per-element-type metadata supplied by the
external element map: the port-dependency pattern (which output depends
on which input) and the alignment-sensitivity flag checked as
`flag_value of A` when the annotation is emitted. -/
structure Traits where
  dep : Nat → Nat → Bool
  alignFlag : Bool

/-- Modelled from the spec: the closed set of behavior rules of
`alignclass.cc` (not under src/): the default pattern-driven rule, the
Shifter, Generator, Want, Combined, Classifier-adjust and Null
variants. -/
inductive Aligner where
  | dflt : Aligner
  | shifter : Int → Aligner
  | generator : AlignmentT → Aligner
  | wanter : AlignmentT → Aligner
  | combined : Aligner → Aligner → Aligner
  | classifier : Aligner
  | null : Aligner

/-- Modelled from the spec: the default forward rule — each output's
guarantee is the join of the inputs it depends on per the
port-dependency pattern, all other ports bad. -/
def defaultHaveFlow (dep : Nat → Nat → Bool) (ins : List AlignmentT) (no : Nat) :
    List AlignmentT :=
  (List.range no).map (fun j =>
    (List.range ins.length).foldl
      (fun acc i => if dep i j then acc.weaken (ins.getD i badA) else acc) badA)

/-- Modelled from the spec: the default backward rule — each input's
requirement is the meet of the requirements of the outputs depending on
it, all other ports bad. -/
def defaultWantFlow (dep : Nat → Nat → Bool) (ni : Nat) (outs : List AlignmentT) :
    List AlignmentT :=
  (List.range ni).map (fun i =>
    (List.range outs.length).foldl
      (fun acc j => if dep i j then acc.strengthen (outs.getD j badA) else acc) badA)

/-- Modelled from the spec: `have_flow` — each rule's forward transfer
from the element's input-alignment slice to its output slice.  The
Shifter shifts by its constant, the Generator always emits its fixed
alignment, Want and Classifier keep the default forward behavior,
Combined uses its first (shifting) part, Null is always bad. -/
def Aligner.have_flow : Aligner → (Nat → Nat → Bool) → List AlignmentT → Nat →
    List AlignmentT
  | .dflt, dep, ins, no => defaultHaveFlow dep ins no
  | .shifter k, _, ins, no => (List.range no).map (fun j => (ins.getD j badA).shift k)
  | .generator a, _, _, no => List.replicate no a
  | .wanter _, dep, ins, no => defaultHaveFlow dep ins no
  | .combined h _, dep, ins, no => h.have_flow dep ins no
  | .classifier, dep, ins, no => defaultHaveFlow dep ins no
  | .null, _, _, no => List.replicate no badA

/-- Modelled from the spec: `want_flow` — each rule's backward transfer
from the element's output-requirement slice to its input slice.  The
Shifter shifts back by its constant, the Want rule always reports its
fixed requirement regardless of the outputs, the Generator has no
input requirement, Combined uses its second (requirement) part, Null
is always bad. -/
def Aligner.want_flow : Aligner → (Nat → Nat → Bool) → Nat → List AlignmentT →
    List AlignmentT
  | .dflt, dep, ni, outs => defaultWantFlow dep ni outs
  | .shifter k, _, ni, outs => (List.range ni).map (fun i => (outs.getD i badA).shift (-k))
  | .generator _, _, ni, _ => List.replicate ni badA
  | .wanter a, _, ni, _ => List.replicate ni a
  | .combined _ w, dep, ni, outs => w.want_flow dep ni outs
  | .classifier, dep, ni, outs => defaultWantFlow dep ni outs
  | .null, _, ni, _ => List.replicate ni badA

/-- Modelled from the spec: `adjust_flow` — the one-shot relaxation of
an already-converged have state.  Only the Classifier rule overrides
it: any alignment with chunk at least 4, at the offset already present,
is sufficient; all other rules leave the slice unchanged (Combined
delegates to its requirement part). -/
def Aligner.adjust_flow : Aligner → List AlignmentT → List AlignmentT
  | .classifier, ins => ins.map (fun a => if 4 ≤ a.chunk then a else ⟨4, a.offset % 4⟩)
  | .combined _ w, ins => w.adjust_flow ins
  | _, ins => ins

/-- `class_factory` (translated from the source): maps a type name to
its behavior rule.  The concrete rule objects built by the individual
`create_aligner` implementations of `alignclass.cc` are not under src/
and are modelled from the spec: Align elements generate exactly their
configured alignment, Strip shifts by its configured length,
CheckIPHeader-style elements want the IP-header alignment. -/
def class_factory (nm : String) (acfg : AlignmentT) (ncfg : Int) : Aligner :=
  if nm == "Align" then .generator acfg
  else if nm == "Strip" then .shifter ncfg
  else if nm == "CheckIPHeader" || nm == "CheckIPHeader2" then .wanter ⟨4, 0⟩
  else if nm == "MarkIPHeader" then .wanter ⟨4, 0⟩
  else if nm == "Classifier" then .classifier
  else if nm == "EtherEncap" then .shifter (-14)
  else if nm == "FromDevice" || nm == "PollDevice" || nm == "FromHost"
      || nm == "SR2SetChecksum" || nm == "SR2CheckHeader"
      || nm == "SetSRChecksum" || nm == "CheckSRHeader" then .generator ⟨4, 2⟩
  else if nm == "InfiniteSource" || nm == "RatedSource" || nm == "ICMPError" then
    .generator ⟨4, 0⟩
  else if nm == "ToHost" then .wanter ⟨4, 2⟩
  else if nm == "IPEncap" || nm == "UDPIPEncap" || nm == "ICMPPingEncap"
      || nm == "RandomUDPIPEncap" || nm == "RoundRobinUDPIPEncap"
      || nm == "RoundRobinTCPIPEncap" then .wanter ⟨4, 0⟩
  else if nm == "ARPResponder" || nm == "ARPQuerier" then .wanter ⟨2, 0⟩
  else if nm == "IPInputCombo" then .combined (.shifter 14) (.wanter ⟨4, 2⟩)
  else if nm == "GridEncap" then .combined (.shifter 98) (.wanter ⟨4, 0⟩)
  else if nm == "Idle" || nm == "Discard" then .null
  else .dflt

/-- The behavior rule bound to an element (the engine constructor's
aligner selection). -/
def alignerOf (e : ElementT) : Aligner := class_factory e.etype e.acfg e.ncfg

/-- The engine state (`struct RouterAlign`): the have/want alignment
vectors, held per element and per port (the flat `_ialign`/`_oalign`
vectors of the source, cut at the `_ioffset`/`_ooffset` boundaries). -/
structure RouterAlign where
  ial : List (List AlignmentT)
  oal : List (List AlignmentT)
deriving DecidableEq

/-- The engine constructor's initial state: all ports bad. -/
def RouterAlign.init (g : RouterT) : RouterAlign :=
  ⟨(List.range g.elements.length).map (fun i => List.replicate (g.ninputs i) badA),
   (List.range g.elements.length).map (fun i => List.replicate (g.noutputs i) badA)⟩

/-- The output slices recomputed by `RouterAlign::have_output`: each
element's rule applied to its current input slice. -/
def hflow (tr : String → Traits) (g : RouterT) (ial : List (List AlignmentT)) :
    List (List AlignmentT) :=
  (List.range g.elements.length).map (fun i =>
    (alignerOf (g.elements.getD i dElt)).have_flow (tr (g.etypeAt i)).dep
      (ial.getD i []) (g.noutputs i))

/-- `RouterAlign::have_output` (translated from the source). -/
def RouterAlign.have_output (tr : String → Traits) (g : RouterT) (s : RouterAlign) :
    RouterAlign :=
  { s with oal := hflow tr g s.ial }

/-- The input slices recomputed by `RouterAlign::have_input`: each input
port's guarantee is the weaken-join over all live connections feeding
it, starting from bad. -/
def buildIal (g : RouterT) (oal : List (List AlignmentT)) : List (List AlignmentT) :=
  (List.range g.elements.length).map (fun i =>
    (List.range (g.ninputs i)).map (fun j =>
      g.conns.foldl (fun acc c =>
        if c.live && c.toE == i && c.toP == j then
          acc.weaken ((oal.getD c.fromE []).getD c.fromP badA)
        else acc) badA))

/-- `RouterAlign::have_input` (translated from the source): recompute
the joins and report whether anything changed. -/
def RouterAlign.have_input (g : RouterT) (s : RouterAlign) : RouterAlign × Bool :=
  let ni := buildIal g s.oal
  (⟨ni, s.oal⟩, if ni = s.ial then false else true)

/-- The input slices recomputed by `RouterAlign::want_input`: each
element's backward rule applied to its current output-requirement
slice. -/
def wflow (tr : String → Traits) (g : RouterT) (oal : List (List AlignmentT)) :
    List (List AlignmentT) :=
  (List.range g.elements.length).map (fun i =>
    (alignerOf (g.elements.getD i dElt)).want_flow (tr (g.etypeAt i)).dep
      (g.ninputs i) (oal.getD i []))

/-- `RouterAlign::want_input` (translated from the source). -/
def RouterAlign.want_input (tr : String → Traits) (g : RouterT) (s : RouterAlign) :
    RouterAlign :=
  { s with ial := wflow tr g s.oal }

/-- The output slices recomputed by `RouterAlign::want_output`: each
output port's requirement is the strengthen-meet over all live
connections it feeds, starting from bad. -/
def buildOal (g : RouterT) (ial : List (List AlignmentT)) : List (List AlignmentT) :=
  (List.range g.elements.length).map (fun i =>
    (List.range (g.noutputs i)).map (fun j =>
      g.conns.foldl (fun acc c =>
        if c.live && c.fromE == i && c.fromP == j then
          acc.strengthen ((ial.getD c.toE []).getD c.toP badA)
        else acc) badA))

/-- `RouterAlign::want_output` (translated from the source): recompute
the meets and report whether anything changed. -/
def RouterAlign.want_output (g : RouterT) (s : RouterAlign) : RouterAlign × Bool :=
  let no := buildOal g s.ial
  (⟨s.ial, no⟩, if no = s.oal then false else true)

/-- `RouterAlign::adjust` (translated from the source): one pass of
`adjust_flow` over every element's input slice, not iterated. -/
def RouterAlign.adjust (g : RouterT) (s : RouterAlign) : RouterAlign :=
  { s with ial := (List.range g.elements.length).map (fun i =>
      (alignerOf (g.elements.getD i dElt)).adjust_flow (s.ial.getD i [])) }

/-- The forward fixpoint loop `do have_output while have_input` of the
source, with structural fuel; `none` when the fuel runs out before
convergence. -/
def haveLoop (tr : String → Traits) (g : RouterT) : Nat → RouterAlign →
    Option RouterAlign
  | 0, _ => none
  | n + 1, s =>
    match RouterAlign.have_input g (RouterAlign.have_output tr g s) with
    | (s2, ch) => if ch then haveLoop tr g n s2 else some s2

/-- The converged have snapshot computed at the top of each phase. -/
def haveFix (tr : String → Traits) (fuel : Nat) (g : RouterT) : Option RouterAlign :=
  haveLoop tr g fuel (RouterAlign.init g)

/-- The backward fixpoint loop `do want_input while want_output` of the
source, with structural fuel. -/
def wantLoop (tr : String → Traits) (g : RouterT) : Nat → RouterAlign →
    Option RouterAlign
  | 0, _ => none
  | n + 1, s =>
    match RouterAlign.want_output g (RouterAlign.want_input tr g s) with
    | (s2, ch) => if ch then wantLoop tr g n s2 else some s2

/-- The converged want snapshot of phase 1. -/
def wantFix (tr : String → Traits) (fuel : Nat) (g : RouterT) : Option RouterAlign :=
  wantLoop tr g fuel (RouterAlign.init g)

theorem have_step_stable (tr : String → Traits) (g : RouterT) (s s' : RouterAlign)
    (hf : RouterAlign.have_input g (RouterAlign.have_output tr g s) = (s', false)) :
    RouterAlign.have_input g (RouterAlign.have_output tr g s') = (s', false) := by
  unfold RouterAlign.have_input RouterAlign.have_output at hf ⊢
  simp only [Prod.mk.injEq] at hf
  obtain ⟨hs, hflag⟩ := hf
  by_cases hch : buildIal g (hflow tr g s.ial) = s.ial
  · subst hs
    simp [hch]
  · simp [if_neg hch] at hflag

theorem want_step_stable (tr : String → Traits) (g : RouterT) (t t' : RouterAlign)
    (hb : RouterAlign.want_output g (RouterAlign.want_input tr g t) = (t', false)) :
    RouterAlign.want_output g (RouterAlign.want_input tr g t') = (t', false) := by
  unfold RouterAlign.want_output RouterAlign.want_input at hb ⊢
  simp only [Prod.mk.injEq] at hb
  obtain ⟨hs, hflag⟩ := hb
  by_cases hch : buildOal g (wflow tr g t.oal) = t.oal
  · subst hs
    simp [hch]
  · simp [if_neg hch] at hflag

/-- C6: both propagation fixpoints are idempotent — once the forward
pass (have_output then have_input) has reported no change, one further
full forward pass leaves every input and output alignment unchanged and
again reports no change, and symmetrically for the backward pass
(want_input then want_output). -/
theorem fixpoints_idempotent (tr : String → Traits) (g : RouterT)
    (s s' t t' : RouterAlign)
    (hf : RouterAlign.have_input g (RouterAlign.have_output tr g s) = (s', false))
    (hb : RouterAlign.want_output g (RouterAlign.want_input tr g t) = (t', false)) :
    RouterAlign.have_input g (RouterAlign.have_output tr g s') = (s', false) ∧
    RouterAlign.want_output g (RouterAlign.want_input tr g t') = (t', false) :=
  ⟨have_step_stable tr g s s' hf, want_step_stable tr g t t' hb⟩

/-- Trivial traits: the all-ports-dependent pattern and no
alignment-sensitivity flag. -/
def trivTr : String → Traits := fun _ => ⟨fun _ _ => true, false⟩

/-- Witness for C6 on the empty graph and its converged states. -/
theorem fixpoints_idempotent_check :
    RouterAlign.have_input ⟨[], []⟩
        (RouterAlign.have_output trivTr ⟨[], []⟩ ⟨[], []⟩) = (⟨[], []⟩, false) ∧
    (RouterAlign.have_input ⟨[], []⟩
        (RouterAlign.have_output trivTr ⟨[], []⟩ ⟨[], []⟩) = (⟨[], []⟩, false) ∧
     RouterAlign.want_output ⟨[], []⟩
        (RouterAlign.want_input trivTr ⟨[], []⟩ ⟨[], []⟩) = (⟨[], []⟩, false)) :=
  ⟨by decide,
   fixpoints_idempotent trivTr ⟨[], []⟩ ⟨[], []⟩ ⟨[], []⟩ ⟨[], []⟩ ⟨[], []⟩
     (by decide) (by decide)⟩

/-- Accessor: the have/want alignment of input port (i, j). -/
def ialAt (s : RouterAlign) (i j : Nat) : AlignmentT := (s.ial.getD i []).getD j badA

/-- Accessor: the have/want alignment of output port (i, j). -/
def oalAt (s : RouterAlign) (i j : Nat) : AlignmentT := (s.oal.getD i []).getD j badA

/-- `aligner_name` (translated from the source): the synthetic name of
the anonymizer-numbered adjuster. -/
def aligner_name (anonymizer : Nat) : String :=
  "Align@click_align@" ++ toString anonymizer

/-- Name lookup (`RouterT::eindex(name) >= 0`). -/
def hasName (g : RouterT) (nm : String) : Bool :=
  g.elements.any (fun e => e.name == nm)

/-- The anonymizer scan of `main` (translated from the source): starting
at `original_nelements + 1`, advance past the names already present.
The structural fuel bounds the scan; `g.elements.length + 1` steps
always suffice. -/
def initAnon (g : RouterT) : Nat → Nat → Nat
  | 0, k => k
  | f + 1, k => if hasName g (aligner_name k) then initAnon g f (k + 1) else k

/-- A synthetic Align adjuster element with the given name, configured
to exactly the given alignment. -/
def alignElt (nm : String) (w : AlignmentT) : ElementT := ⟨nm, "Align", w, 0, true⟩

/-- The connection-matching function of `find_connections_to`. -/
def srcOf (i j : Nat) (c : ConnectionT) : Option (Nat × Nat) :=
  if c.live && c.toE == i && c.toP == j then some (c.fromE, c.fromP) else none

/-- Modelled from the spec: `RouterT::find_connections_to` — the source
ports of the live connections into input port (i, j). -/
def findConnsTo (g : RouterT) (i j : Nat) : List (Nat × Nat) :=
  g.conns.filterMap (srcOf i j)

/-- The connection-matching function of `find_connections_from`. -/
def dstOf (i j : Nat) (c : ConnectionT) : Option (Nat × Nat) :=
  if c.live && c.fromE == i && c.fromP == j then some (c.toE, c.toP) else none

/-- Modelled from the spec: `RouterT::find_connections_from` — the
destination ports of the live connections out of output port (i, j). -/
def findConnsFrom (g : RouterT) (i j : Nat) : List (Nat × Nat) :=
  g.conns.filterMap (dstOf i j)

/-- The per-connection retargeting performed by `insert_before`. -/
def redirectTo (ti tj ne : Nat) (c : ConnectionT) : ConnectionT :=
  if c.live && c.toE == ti && c.toP == tj then { c with toE := ne, toP := 0 } else c

/-- Modelled from the spec: `RouterT::insert_before` — splice a new
element immediately upstream of input port (ti, tj): every live
connection into the port is redirected to the new element's input 0,
and the new element's output 0 is connected to the port. -/
def insertBefore (g : RouterT) (e : ElementT) (ti tj : Nat) : RouterT :=
  { elements := g.elements ++ [e],
    conns := g.conns.map (redirectTo ti tj g.elements.length) ++
      [⟨g.elements.length, 0, ti, tj, true⟩] }

/-- The original input ports scanned by the insertion phases: (i, j)
for every element i below the given bound and every input port j of i,
in the source's loop order. -/
def portsUpTo (g : RouterT) : Nat → List (Nat × Nat)
  | 0 => []
  | n + 1 => portsUpTo g n ++ (List.range (g.ninputs n)).map (fun j => (n, j))

/-- The insertion loop shared by phases 1 and 3 (translated from the
source): for each scanned port, if `have <= want` fails and want is not
bad, create a new adjuster named by the running anonymizer, configured
to exactly the want value, and splice it upstream of the port,
counting the insertion. -/
def insertAligns (hv wt : Nat → Nat → AlignmentT) :
    List (Nat × Nat) → RouterT → Nat → Nat → RouterT × Nat × Nat
  | [], g, anon, cnt => (g, anon, cnt)
  | (i, j) :: ps, g, anon, cnt =>
    if ((hv i j).compat (wt i j) || (wt i j).bad) = true then
      insertAligns hv wt ps g anon cnt
    else
      insertAligns hv wt ps
        (insertBefore g (alignElt (aligner_name anon) (wt i j)) i j)
        (anon + 1) (cnt + 1)

/-- Well-formed connection lists: every endpoint element index is in
range. -/
def connsWF (g : RouterT) : Prop :=
  ∀ c ∈ g.conns, c.toE < g.elements.length ∧ c.fromE < g.elements.length

theorem srcOf_mk (i j fe fp te tp : Nat) (lv : Bool) :
    srcOf i j ⟨fe, fp, te, tp, lv⟩ =
      (if lv = true ∧ te = i ∧ tp = j then some (fe, fp) else none) := by
  unfold srcOf
  by_cases h : lv = true ∧ te = i ∧ tp = j
  · obtain ⟨h1, h2, h3⟩ := h
    subst h1 h2 h3
    simp
  · have hb : ¬((lv && te == i && tp == j) = true) := by
      simp only [Bool.and_eq_true, beq_iff_eq]
      rintro ⟨⟨a, b⟩, cc⟩
      exact h ⟨a, b, cc⟩
    simp [hb, h]

theorem srcOf_none_of (i j : Nat) (c : ConnectionT)
    (h : ¬(c.live = true ∧ c.toE = i ∧ c.toP = j)) : srcOf i j c = none := by
  unfold srcOf
  have hc : ¬((c.live && c.toE == i && c.toP == j) = true) := by
    simp only [Bool.and_eq_true, beq_iff_eq]
    rintro ⟨⟨ha, hb⟩, hcc⟩
    exact h ⟨ha, hb, hcc⟩
  simp [hc]

theorem srcOf_some_of (i j : Nat) (c : ConnectionT)
    (h1 : c.live = true) (h2 : c.toE = i) (h3 : c.toP = j) :
    srcOf i j c = some (c.fromE, c.fromP) := by
  unfold srcOf
  simp [h1, h2, h3]

theorem redirectTo_pos (ti tj ne : Nat) (c : ConnectionT)
    (h1 : c.live = true) (h2 : c.toE = ti) (h3 : c.toP = tj) :
    redirectTo ti tj ne c = ⟨c.fromE, c.fromP, ne, 0, c.live⟩ := by
  unfold redirectTo
  simp [h1, h2, h3]

theorem redirectTo_neg (ti tj ne : Nat) (c : ConnectionT)
    (h : ¬(c.live = true ∧ c.toE = ti ∧ c.toP = tj)) :
    redirectTo ti tj ne c = c := by
  unfold redirectTo
  have hb : ¬((c.live && c.toE == ti && c.toP == tj) = true) := by
    simp only [Bool.and_eq_true, beq_iff_eq]
    rintro ⟨⟨a, b⟩, cc⟩
    exact h ⟨a, b, cc⟩
  simp [hb]

theorem findConnsTo_insertBefore_other (g : RouterT) (e : ElementT) (ti tj i j : Nat)
    (h1 : ¬(i = ti ∧ j = tj)) (h2 : i < g.elements.length) :
    findConnsTo (insertBefore g e ti tj) i j = findConnsTo g i j := by
  unfold findConnsTo insertBefore
  rw [List.filterMap_append, List.filterMap_map]
  have hlast : List.filterMap (srcOf i j)
      [(⟨g.elements.length, 0, ti, tj, true⟩ : ConnectionT)] = [] := by
    rw [List.filterMap_cons, srcOf_mk,
      if_neg (by rintro ⟨-, hti, htj⟩; exact h1 ⟨hti.symm, htj.symm⟩)]
    rfl
  rw [hlast, List.append_nil]
  apply List.filterMap_congr
  intro c _
  show srcOf i j (redirectTo ti tj g.elements.length c) = srcOf i j c
  by_cases hcc : c.live = true ∧ c.toE = ti ∧ c.toP = tj
  · obtain ⟨hlv, hte, htp⟩ := hcc
    rw [redirectTo_pos ti tj _ c hlv hte htp, srcOf_mk,
      if_neg (by rintro ⟨-, hne, -⟩; omega),
      srcOf_none_of i j c (by rintro ⟨-, hi2, hj2⟩; exact h1 ⟨by omega, by omega⟩)]
  · rw [redirectTo_neg ti tj _ c hcc]

theorem findConnsTo_insertBefore_self (g : RouterT) (e : ElementT) (ti tj : Nat)
    (h2 : ti < g.elements.length) :
    findConnsTo (insertBefore g e ti tj) ti tj = [(g.elements.length, 0)] := by
  unfold findConnsTo insertBefore
  rw [List.filterMap_append, List.filterMap_map]
  have hlast : List.filterMap (srcOf ti tj)
      [(⟨g.elements.length, 0, ti, tj, true⟩ : ConnectionT)] =
      [(g.elements.length, 0)] := by
    rw [List.filterMap_cons, srcOf_mk, if_pos ⟨rfl, rfl, rfl⟩]
    rfl
  rw [hlast]
  have hmain : List.filterMap (srcOf ti tj ∘ redirectTo ti tj g.elements.length)
      g.conns = [] := by
    rw [List.filterMap_eq_nil_iff]
    intro c _
    show srcOf ti tj (redirectTo ti tj g.elements.length c) = none
    by_cases hcc : c.live = true ∧ c.toE = ti ∧ c.toP = tj
    · obtain ⟨hlv, hte, htp⟩ := hcc
      rw [redirectTo_pos ti tj _ c hlv hte htp, srcOf_mk,
        if_neg (by rintro ⟨-, hne, -⟩; omega)]
    · rw [redirectTo_neg ti tj _ c hcc, srcOf_none_of ti tj c hcc]
  rw [hmain, List.nil_append]

theorem findConnsTo_insertBefore_new (g : RouterT) (e : ElementT) (ti tj : Nat)
    (hwf : connsWF g) (h2 : ti < g.elements.length) :
    findConnsTo (insertBefore g e ti tj) g.elements.length 0 = findConnsTo g ti tj := by
  unfold findConnsTo insertBefore
  rw [List.filterMap_append, List.filterMap_map]
  have hlast : List.filterMap (srcOf g.elements.length 0)
      [(⟨g.elements.length, 0, ti, tj, true⟩ : ConnectionT)] = [] := by
    rw [List.filterMap_cons, srcOf_mk, if_neg (by rintro ⟨-, hti, -⟩; omega)]
    rfl
  rw [hlast, List.append_nil]
  apply List.filterMap_congr
  intro c hc
  show srcOf g.elements.length 0 (redirectTo ti tj g.elements.length c) = srcOf ti tj c
  by_cases hcc : c.live = true ∧ c.toE = ti ∧ c.toP = tj
  · obtain ⟨hlv, hte, htp⟩ := hcc
    rw [redirectTo_pos ti tj _ c hlv hte htp, srcOf_mk, if_pos ⟨hlv, rfl, rfl⟩,
      srcOf_some_of ti tj c hlv hte htp]
  · have hn1 : srcOf g.elements.length 0 c = none := by
      apply srcOf_none_of
      rintro ⟨-, hteq, -⟩
      have := (hwf c hc).1
      omega
    rw [redirectTo_neg ti tj _ c hcc, hn1, srcOf_none_of ti tj c hcc]

theorem connsWF_insertBefore (g : RouterT) (e : ElementT) (ti tj : Nat)
    (hwf : connsWF g) (h2 : ti < g.elements.length) :
    connsWF (insertBefore g e ti tj) := by
  intro c hc
  unfold insertBefore at hc
  simp only [List.mem_append, List.mem_map, List.mem_singleton] at hc
  simp only [insertBefore, List.length_append, List.length_singleton]
  rcases hc with ⟨c0, hc0, rfl⟩ | rfl
  · by_cases hcc : c0.live = true ∧ c0.toE = ti ∧ c0.toP = tj
    · rw [redirectTo_pos ti tj _ c0 hcc.1 hcc.2.1 hcc.2.2]
      constructor
      · show g.elements.length < g.elements.length + 1
        omega
      · show c0.fromE < g.elements.length + 1
        have := (hwf c0 hc0).2
        omega
    · rw [redirectTo_neg ti tj _ c0 hcc]
      have := hwf c0 hc0
      omega
  · constructor
    · show ti < g.elements.length + 1
      omega
    · show g.elements.length < g.elements.length + 1
      omega

theorem portsUpTo_mem (g : RouterT) : ∀ (n i j : Nat),
    (i, j) ∈ portsUpTo g n ↔ i < n ∧ j < g.ninputs i := by
  intro n
  induction n with
  | zero => intro i j; simp [portsUpTo]
  | succ m ih =>
    intro i j
    simp only [portsUpTo, List.mem_append, List.mem_map, List.mem_range, ih]
    constructor
    · rintro (⟨h1, h2⟩ | ⟨a, ha, heq⟩)
      · exact ⟨by omega, h2⟩
      · obtain ⟨rfl, rfl⟩ := Prod.mk.injEq _ _ _ _ ▸ heq
        exact ⟨by omega, ha⟩
    · rintro ⟨h1, h2⟩
      by_cases hi : i < m
      · exact Or.inl ⟨hi, h2⟩
      · have : i = m := by omega
        subst this
        exact Or.inr ⟨j, h2, rfl⟩

theorem portsUpTo_nodup (g : RouterT) : ∀ n, (portsUpTo g n).Nodup := by
  intro n
  induction n with
  | zero => simp [portsUpTo]
  | succ m ih =>
    simp only [portsUpTo]
    refine List.Nodup.append ih ?_ ?_
    · refine List.Nodup.map ?_ (List.nodup_range _)
      intro a b hab
      exact (Prod.mk.injEq _ _ _ _ ▸ hab).2
    · intro q hq1 hq2
      obtain ⟨i, j⟩ := q
      have h1 := ((portsUpTo_mem g m i j).mp hq1).1
      simp only [List.mem_map, List.mem_range] at hq2
      obtain ⟨a, ha, heq⟩ := hq2
      have := (Prod.mk.injEq _ _ _ _ ▸ heq).1
      omega

theorem insertAligns_elements_prefix (hv wt : Nat → Nat → AlignmentT) :
    ∀ (ps : List (Nat × Nat)) (g : RouterT) (anon cnt : Nat),
    ∃ tail : List ElementT,
      (insertAligns hv wt ps g anon cnt).1.elements = g.elements ++ tail := by
  intro ps
  induction ps with
  | nil => intro g anon cnt; exact ⟨[], by simp [insertAligns]⟩
  | cons p ps ih =>
    intro g anon cnt
    obtain ⟨i, j⟩ := p
    by_cases hcond : ((hv i j).compat (wt i j) || (wt i j).bad) = true
    · simp only [insertAligns, if_pos hcond]
      exact ih g anon cnt
    · simp only [insertAligns, if_neg hcond]
      obtain ⟨tail, htail⟩ :=
        ih (insertBefore g (alignElt (aligner_name anon) (wt i j)) i j) (anon + 1) (cnt + 1)
      refine ⟨[alignElt (aligner_name anon) (wt i j)] ++ tail, ?_⟩
      rw [htail]
      simp [insertBefore]

theorem insertAligns_preserves (hv wt : Nat → Nat → AlignmentT) (ne0 : Nat) :
    ∀ (ps : List (Nat × Nat)) (g : RouterT) (anon cnt i j : Nat),
    (∀ q ∈ ps, q.1 < ne0) → ne0 ≤ g.elements.length → connsWF g →
    (i, j) ∉ ps → i < g.elements.length →
    findConnsTo (insertAligns hv wt ps g anon cnt).1 i j = findConnsTo g i j := by
  intro ps
  induction ps with
  | nil => intro g anon cnt i j _ _ _ _ _; simp [insertAligns]
  | cons p ps ih =>
    intro g anon cnt i j hlt hne hwf hnotin hilt
    obtain ⟨a, b⟩ := p
    have ha0 : a < ne0 := hlt (a, b) (List.mem_cons_self _ _)
    have hnotin2 : (i, j) ∉ ps := fun h => hnotin (List.mem_cons_of_mem _ h)
    have hne2 : ¬(i = a ∧ j = b) := by
      rintro ⟨rfl, rfl⟩
      exact hnotin (List.mem_cons_self _ _)
    by_cases hcond : ((hv a b).compat (wt a b) || (wt a b).bad) = true
    · simp only [insertAligns, if_pos hcond]
      exact ih g anon cnt i j (fun q hq => hlt q (List.mem_cons_of_mem _ hq))
        hne hwf hnotin2 hilt
    · simp only [insertAligns, if_neg hcond]
      have halt : a < g.elements.length := by omega
      have hstep := findConnsTo_insertBefore_other g
        (alignElt (aligner_name anon) (wt a b)) a b i j hne2 hilt
      rw [← hstep]
      apply ih _ (anon + 1) (cnt + 1) i j
        (fun q hq => hlt q (List.mem_cons_of_mem _ hq))
      · simp [insertBefore]; omega
      · exact connsWF_insertBefore g _ a b hwf halt
      · exact hnotin2
      · simp [insertBefore]; omega

theorem insertAligns_spec (hv wt : Nat → Nat → AlignmentT) (ne0 : Nat) :
    ∀ (ps : List (Nat × Nat)) (g : RouterT) (anon cnt i j : Nat),
    ps.Nodup → (∀ q ∈ ps, q.1 < ne0) → ne0 ≤ g.elements.length → connsWF g →
    (i, j) ∈ ps →
    (((hv i j).compat (wt i j) || (wt i j).bad) = true →
      findConnsTo (insertAligns hv wt ps g anon cnt).1 i j = findConnsTo g i j) ∧
    (((hv i j).compat (wt i j) || (wt i j).bad) = false →
      ∃ k nm, g.elements.length ≤ k ∧
        k < (insertAligns hv wt ps g anon cnt).1.elements.length ∧
        (insertAligns hv wt ps g anon cnt).1.elements.getD k dElt =
          alignElt nm (wt i j) ∧
        findConnsTo (insertAligns hv wt ps g anon cnt).1 i j = [(k, 0)] ∧
        findConnsTo (insertAligns hv wt ps g anon cnt).1 k 0 = findConnsTo g i j) := by
  intro ps
  induction ps with
  | nil => intro g anon cnt i j _ _ _ _ h; simp at h
  | cons p ps ih =>
    intro g anon cnt i j hnd hlt hne hwf hmem
    obtain ⟨a, b⟩ := p
    have ha0 : a < ne0 := hlt (a, b) (List.mem_cons_self _ _)
    have halt : a < g.elements.length := by omega
    have hnd2 : ps.Nodup := (List.nodup_cons.mp hnd).2
    have hhead : (a, b) ∉ ps := (List.nodup_cons.mp hnd).1
    by_cases hme : (i, j) = (a, b)
    · obtain ⟨rfl, rfl⟩ := Prod.mk.injEq _ _ _ _ ▸ hme
      by_cases hcond : ((hv i j).compat (wt i j) || (wt i j).bad) = true
      · constructor
        · intro _
          simp only [insertAligns, if_pos hcond]
          exact insertAligns_preserves hv wt ne0 ps g anon cnt i j
            (fun q hq => hlt q (List.mem_cons_of_mem _ hq)) hne hwf hhead halt
        · intro hcf
          rw [hcond] at hcf
          cases hcf
      · constructor
        · intro hct
          exact absurd hct hcond
        · intro _
          simp only [insertAligns, if_neg hcond]
          have hg1len : (insertBefore g (alignElt (aligner_name anon) (wt i j)) i j
              ).elements.length = g.elements.length + 1 := by
            simp [insertBefore]
          have hwf1 := connsWF_insertBefore g (alignElt (aligner_name anon) (wt i j))
            i j hwf halt
          obtain ⟨tail, htail⟩ := insertAligns_elements_prefix hv wt ps
            (insertBefore g (alignElt (aligner_name anon) (wt i j)) i j)
            (anon + 1) (cnt + 1)
          refine ⟨g.elements.length, aligner_name anon, le_rfl, ?_, ?_, ?_, ?_⟩
          · rw [htail, List.length_append, hg1len]
            omega
          · rw [htail, List.getD_append _ _ _ _ (by rw [hg1len]; omega)]
            show ((g.elements ++ [alignElt (aligner_name anon) (wt i j)]).getD
              g.elements.length dElt) = _
            rw [List.getD_append_right _ _ _ _ le_rfl, Nat.sub_self]
            rfl
          · rw [insertAligns_preserves hv wt ne0 ps _ (anon + 1) (cnt + 1) i j
              (fun q hq => hlt q (List.mem_cons_of_mem _ hq))
              (by rw [hg1len]; omega) hwf1 hhead (by rw [hg1len]; omega)]
            exact findConnsTo_insertBefore_self g _ i j halt
          · have hk0 : (g.elements.length, (0 : Nat)) ∉ ps := by
              intro hmem0
              have := hlt _ (List.mem_cons_of_mem _ hmem0)
              simp at this
              omega
            rw [insertAligns_preserves hv wt ne0 ps _ (anon + 1) (cnt + 1)
              g.elements.length 0 (fun q hq => hlt q (List.mem_cons_of_mem _ hq))
              (by rw [hg1len]; omega) hwf1 hk0 (by rw [hg1len]; omega)]
            exact findConnsTo_insertBefore_new g _ i j hwf halt
    · have hmem2 : (i, j) ∈ ps := by
        rcases List.mem_cons.mp hmem with h | h
        · exact absurd h hme
        · exact h
      by_cases hcond : ((hv a b).compat (wt a b) || (wt a b).bad) = true
      · simp only [insertAligns, if_pos hcond]
        exact ih g anon cnt i j hnd2 (fun q hq => hlt q (List.mem_cons_of_mem _ hq))
          hne hwf hmem2
      · simp only [insertAligns, if_neg hcond]
        have hij_ne : ¬(i = a ∧ j = b) := by
          rintro ⟨rfl, rfl⟩
          exact hme rfl
        have hilt : i < g.elements.length := by
          have := hlt (i, j) hmem
          simp at this
          omega
        have hg1len : (insertBefore g (alignElt (aligner_name anon) (wt a b)) a b
            ).elements.length = g.elements.length + 1 := by
          simp [insertBefore]
        have hstep : findConnsTo
            (insertBefore g (alignElt (aligner_name anon) (wt a b)) a b) i j =
            findConnsTo g i j :=
          findConnsTo_insertBefore_other g _ a b i j hij_ne hilt
        have hwf1 := connsWF_insertBefore g (alignElt (aligner_name anon) (wt a b))
          a b hwf halt
        have hrec := ih (insertBefore g (alignElt (aligner_name anon) (wt a b)) a b)
          (anon + 1) (cnt + 1) i j hnd2
          (fun q hq => hlt q (List.mem_cons_of_mem _ hq))
          (by rw [hg1len]; omega) hwf1 hmem2
        constructor
        · intro hct
          rw [hrec.1 hct, hstep]
        · intro hcf
          obtain ⟨k, nm, hk1, hk2, hk3, hk4, hk5⟩ := hrec.2 hcf
          refine ⟨k, nm, by rw [hg1len] at hk1; omega, hk2, hk3, hk4, ?_⟩
          rw [hk5, hstep]

/-- Concrete graph for the C1 witness: a generator feeding a consumer. -/
def gW1 : RouterT :=
  ⟨[⟨"s", "InfiniteSource", badA, 0, true⟩, ⟨"t", "ToHost", badA, 0, true⟩],
   [⟨0, 0, 1, 0, true⟩]⟩

/-- Concrete have vector for the C1 witness. -/
def hvW : Nat → Nat → AlignmentT := fun _ _ => ⟨4, 0⟩

/-- Concrete want vector for the C1 witness. -/
def wtW : Nat → Nat → AlignmentT := fun _ _ => ⟨4, 2⟩

theorem have_exit_converged (tr : String → Traits) (g : RouterT) (s s2 : RouterAlign)
    (h : RouterAlign.have_input g (RouterAlign.have_output tr g s) = (s2, false)) :
    RouterAlign.have_output tr g s2 = s2 ∧
    RouterAlign.have_input g s2 = (s2, false) := by
  unfold RouterAlign.have_input RouterAlign.have_output at h ⊢
  simp only [Prod.mk.injEq] at h
  obtain ⟨hs, hflag⟩ := h
  by_cases hch : buildIal g (hflow tr g s.ial) = s.ial
  · subst hs
    constructor
    · simp [hch]
    · simp [hch]
  · simp [if_neg hch] at hflag

theorem haveLoop_converged (tr : String → Traits) (g : RouterT) :
    ∀ (n : Nat) (s s' : RouterAlign), haveLoop tr g n s = some s' →
    RouterAlign.have_output tr g s' = s' ∧
    RouterAlign.have_input g s' = (s', false) := by
  intro n
  induction n with
  | zero => intro s s' h; cases h
  | succ m ih =>
    intro s s' h
    unfold haveLoop at h
    rcases hstep : RouterAlign.have_input g (RouterAlign.have_output tr g s)
      with ⟨s2, ch⟩
    rw [hstep] at h
    cases ch
    · simp at h
      subst h
      exact have_exit_converged tr g s s2 hstep
    · simp at h
      exact ih s2 s' h

theorem getD_range_map {α : Type} (f : Nat → α) (n i : Nat) (d : α) (h : i < n) :
    ((List.range n).map f).getD i d = f i := by
  rw [List.getD_eq_getElem?_getD, List.getElem?_map, List.getElem?_range h]
  rfl

theorem foldl_filterMap_srcOf (oal : List (List AlignmentT)) (i j : Nat) :
    ∀ (l : List ConnectionT) (acc : AlignmentT),
    l.foldl (fun acc c => if c.live && c.toE == i && c.toP == j then
        acc.weaken ((oal.getD c.fromE []).getD c.fromP badA) else acc) acc =
    (l.filterMap (srcOf i j)).foldl
      (fun acc q => acc.weaken ((oal.getD q.1 []).getD q.2 badA)) acc := by
  intro l
  induction l with
  | nil => intro acc; rfl
  | cons c t ih =>
    intro acc
    rw [List.foldl_cons, List.filterMap_cons]
    cases hb : (c.live && c.toE == i && c.toP == j) with
    | true =>
      rw [if_pos rfl]
      have hsome : srcOf i j c = some (c.fromE, c.fromP) := by
        simp only [Bool.and_eq_true, beq_iff_eq] at hb
        exact srcOf_some_of i j c hb.1.1 hb.1.2 hb.2
      rw [hsome, List.foldl_cons]
      exact ih _
    | false =>
      rw [if_neg (by simp)]
      have hnone : srcOf i j c = none := by
        apply srcOf_none_of
        rintro ⟨h1, h2, h3⟩
        rw [h1, h2, h3] at hb
        simp at hb
      rw [hnone]
      exact ih _

theorem ninputs_ge_aux (i : Nat) (l : List ConnectionT) :
    ∀ (m : Nat), m ≤ l.foldl
      (fun m c => if c.live && c.toE == i then max m (c.toP + 1) else m) m := by
  induction l with
  | nil => intro m; exact le_rfl
  | cons c t ih =>
    intro m
    rw [List.foldl_cons]
    cases hb : (c.live && c.toE == i) with
    | true =>
      rw [if_pos rfl]
      exact le_trans (le_max_left _ _) (ih _)
    | false =>
      rw [if_neg (by simp)]
      exact ih m

theorem ninputs_ge (g : RouterT) (c : ConnectionT) (hc : c ∈ g.conns)
    (hl : c.live = true) : c.toP + 1 ≤ g.ninputs c.toE := by
  unfold RouterT.ninputs
  obtain ⟨l1, l2, hsplit⟩ := List.append_of_mem hc
  rw [hsplit, List.foldl_append, List.foldl_cons]
  rw [if_pos (by simp [hl])]
  exact le_trans (le_max_right _ _) (ninputs_ge_aux c.toE l2 _)

theorem noutputs_ge_aux (i : Nat) (l : List ConnectionT) :
    ∀ (m : Nat), m ≤ l.foldl
      (fun m c => if c.live && c.fromE == i then max m (c.fromP + 1) else m) m := by
  induction l with
  | nil => intro m; exact le_rfl
  | cons c t ih =>
    intro m
    rw [List.foldl_cons]
    cases hb : (c.live && c.fromE == i) with
    | true =>
      rw [if_pos rfl]
      exact le_trans (le_max_left _ _) (ih _)
    | false =>
      rw [if_neg (by simp)]
      exact ih m

theorem noutputs_ge (g : RouterT) (c : ConnectionT) (hc : c ∈ g.conns)
    (hl : c.live = true) : c.fromP + 1 ≤ g.noutputs c.fromE := by
  unfold RouterT.noutputs
  obtain ⟨l1, l2, hsplit⟩ := List.append_of_mem hc
  rw [hsplit, List.foldl_append, List.foldl_cons]
  rw [if_pos (by simp [hl])]
  exact le_trans (le_max_right _ _) (noutputs_ge_aux c.fromE l2 _)

theorem weaken_badA_left (x : AlignmentT) : badA.weaken x = x := rfl

theorem compat_self (w : AlignmentT) (hb : w.bad = false) (ho : w.offset < w.chunk) :
    w.compat w = true := by
  unfold AlignmentT.compat
  rw [hb]
  simp only [Bool.false_or, Bool.not_false, Bool.true_and, Bool.and_eq_true,
    beq_iff_eq]
  exact ⟨Nat.mod_self _, Nat.mod_eq_of_lt ho⟩

theorem alignerOf_alignElt (nm : String) (w : AlignmentT) :
    alignerOf (alignElt nm w) = Aligner.generator w := rfl

theorem getD_replicate_lt {α : Type} (x d : α) (n m : Nat) (h : m < n) :
    (List.replicate n x).getD m d = x := by
  rw [List.getD_eq_getElem?_getD, List.getElem?_replicate]
  simp [h]

/-- Phase 1 of `main` (translated from the source): compute the
converged have and want snapshots independently on the unmodified
graph, then run the insertion loop over the original ports.  Returns
the mutated graph, the next anonymizer and the number of adjusters
added; `none` if a fixpoint loop runs out of fuel. -/
def phase1 (tr : String → Traits) (fuel : Nat) (g : RouterT) (anon : Nat) :
    Option (RouterT × Nat × Nat) :=
  match haveFix tr fuel g, wantFix tr fuel g with
  | some ral, some want_ral =>
    some (insertAligns (fun i j => ialAt ral i j) (fun i j => ialAt want_ral i j)
      (portsUpTo g g.elements.length) g anon 0)
  | _, _ => none

/-- C2 (amended): after phase 1, for every original input port at which
phase 1 inserted an adjuster, any converged have snapshot of the
mutated graph assigns that port exactly the adjuster's configured
alignment — the phase-1 want value — which is compatible with that
want; ports at which no adjuster was inserted are not guaranteed to
remain compatible. -/
theorem phase1_inserted_ports_compatible
    (tr : String → Traits) (g : RouterT) (hv wt : Nat → Nat → AlignmentT)
    (anon fuel i j : Nat) (s : RouterAlign) (hwf : connsWF g)
    (hp : (i, j) ∈ portsUpTo g g.elements.length)
    (hcf : ((hv i j).compat (wt i j) || (wt i j).bad) = false)
    (hwtwf : (wt i j).offset < (wt i j).chunk)
    (hfix : haveFix tr fuel
      (insertAligns hv wt (portsUpTo g g.elements.length) g anon 0).1 = some s) :
    ialAt s i j = wt i j ∧ (ialAt s i j).compat (wt i j) = true := by
  obtain ⟨k, nm, hk1, hk2, hk3, hk4, hk5⟩ :=
    (insertAligns_spec hv wt g.elements.length (portsUpTo g g.elements.length) g
      anon 0 i j (portsUpTo_nodup g _)
      (fun q hq => by
        obtain ⟨qa, qb⟩ := q
        exact ((portsUpTo_mem g _ qa qb).mp hq).1)
      le_rfl hwf hp).2 hcf
  obtain ⟨hout, hin⟩ := haveLoop_converged tr _ fuel _ s hfix
  obtain ⟨sial, soal⟩ := s
  have hial : buildIal (insertAligns hv wt (portsUpTo g g.elements.length) g anon 0).1
      soal = sial := by
    unfold RouterAlign.have_input at hin
    simp only [Prod.mk.injEq, RouterAlign.mk.injEq] at hin
    exact hin.1.1
  have hoal : hflow tr (insertAligns hv wt (portsUpTo g g.elements.length) g anon 0).1
      sial = soal := by
    unfold RouterAlign.have_output at hout
    simp only [RouterAlign.mk.injEq] at hout
    exact hout.2
  set g1 := (insertAligns hv wt (portsUpTo g g.elements.length) g anon 0).1 with hg1
  have hconn : ∃ c ∈ g1.conns, c.live = true ∧ c.toE = i ∧ c.toP = j ∧
      c.fromE = k ∧ c.fromP = 0 := by
    have hmem : (k, 0) ∈ findConnsTo g1 i j := by
      rw [hk4]
      exact List.mem_singleton.mpr rfl
    unfold findConnsTo at hmem
    rw [List.mem_filterMap] at hmem
    obtain ⟨c, hc, hsc⟩ := hmem
    unfold srcOf at hsc
    by_cases hcc : (c.live && c.toE == i && c.toP == j) = true
    · rw [if_pos hcc] at hsc
      simp only [Bool.and_eq_true, beq_iff_eq] at hcc
      have hfe := (Prod.mk.injEq _ _ _ _ ▸ (Option.some.injEq _ _ ▸ hsc)).1
      have hfp := (Prod.mk.injEq _ _ _ _ ▸ (Option.some.injEq _ _ ▸ hsc)).2
      exact ⟨c, hc, hcc.1.1, hcc.1.2, hcc.2, hfe, hfp⟩
    · rw [if_neg hcc] at hsc
      cases hsc
  obtain ⟨c, hcmem, hclive, hcte, hctp, hcfe, hcfp⟩ := hconn
  have hjlt : j < g1.ninputs i := by
    have := ninputs_ge g1 c hcmem hclive
    rw [hcte, hctp] at this
    omega
  have hplt : (0 : Nat) < g1.noutputs k := by
    have := noutputs_ge g1 c hcmem hclive
    rw [hcfe, hcfp] at this
    omega
  have hilt : i < g1.elements.length := by
    have h1 := ((portsUpTo_mem g _ i j).mp hp).1
    obtain ⟨tail, htail⟩ :=
      insertAligns_elements_prefix hv wt (portsUpTo g g.elements.length) g anon 0
    rw [← hg1] at htail
    rw [htail, List.length_append]
    omega
  have hentry : ialAt ⟨sial, soal⟩ i j =
      badA.weaken ((soal.getD k []).getD 0 badA) := by
    unfold ialAt
    rw [← hial]
    unfold buildIal
    rw [getD_range_map _ _ _ _ hilt, getD_range_map _ _ _ _ hjlt,
      foldl_filterMap_srcOf]
    show (findConnsTo g1 i j).foldl _ badA = _
    rw [hk4]
    rfl
  have hgen : (soal.getD k []).getD 0 badA = wt i j := by
    rw [← hoal]
    unfold hflow
    rw [getD_range_map _ _ _ _ hk2, hk3, alignerOf_alignElt]
    show (List.replicate (g1.noutputs k) (wt i j)).getD 0 badA = wt i j
    exact getD_replicate_lt _ _ _ _ hplt
  have hbadf : (wt i j).bad = false := by
    rcases Bool.or_eq_false_iff.mp hcf with ⟨-, h⟩
    exact h
  have hval : ialAt ⟨sial, soal⟩ i j = wt i j := by
    rw [hentry, hgen, weaken_badA_left]
  exact ⟨hval, by rw [hval]; exact compat_self _ hbadf hwtwf⟩

/-- Concrete graph refuting C2: a generator guaranteeing (4, 2), a
shifting encapsulator requiring (4, 0), and a consumer requiring
(4, 0) that is already satisfied before phase 1. -/
def gC2 : RouterT :=
  ⟨[⟨"fd", "FromDevice", badA, 0, true⟩, ⟨"ge", "GridEncap", badA, 0, true⟩,
    ⟨"ipe", "IPEncap", badA, 0, true⟩],
   [⟨0, 0, 1, 0, true⟩, ⟨1, 0, 2, 0, true⟩]⟩

/-- Counterexample to C2 as stated: on `gC2`, phase 1 inserts an
adjuster only upstream of the encapsulator; recomputing the converged
have fixpoint on the mutated graph leaves original input port (2, 0)
with a have alignment that is not compatible with its phase-1 want
alignment, although that want is not bad. -/
theorem phase1_postcondition_cex :
    gC2.elements.length = 3 ∧
    (phase1 trivTr 8 gC2 4).bind (fun r => (wantFix trivTr 8 gC2).bind (fun w =>
      (haveFix trivTr 8 r.1).map (fun s =>
        !(ialAt w 2 0).bad && !(ialAt s 2 0).compat (ialAt w 2 0)))) = some true := by
  constructor
  · rfl
  · decide

/-- Witness for the amended C2 at the concrete graph `gW1`. -/
theorem phase1_inserted_ports_compatible_check :
    (connsWF gW1 ∧ (1, 0) ∈ portsUpTo gW1 gW1.elements.length ∧
     ((hvW 1 0).compat (wtW 1 0) || (wtW 1 0).bad) = false ∧
     (wtW 1 0).offset < (wtW 1 0).chunk ∧
     haveFix trivTr 6 (insertAligns hvW wtW (portsUpTo gW1 gW1.elements.length)
       gW1 3 0).1 =
       some ⟨[[], [⟨4, 2⟩], [⟨4, 0⟩]], [[⟨4, 0⟩], [], [⟨4, 2⟩]]⟩) ∧
    (ialAt ⟨[[], [⟨4, 2⟩], [⟨4, 0⟩]], [[⟨4, 0⟩], [], [⟨4, 2⟩]]⟩ 1 0 = wtW 1 0 ∧
     (ialAt ⟨[[], [⟨4, 2⟩], [⟨4, 0⟩]], [[⟨4, 0⟩], [], [⟨4, 2⟩]]⟩ 1 0).compat
       (wtW 1 0) = true) :=
  ⟨⟨by unfold connsWF; decide, by decide, by decide, by decide, by decide⟩,
   phase1_inserted_ports_compatible trivTr gW1 hvW wtW 3 6 1 0
     ⟨[[], [⟨4, 2⟩], [⟨4, 0⟩]], [[⟨4, 0⟩], [], [⟨4, 2⟩]]⟩
     (by unfold connsWF; decide) (by decide) (by decide) (by decide) (by decide)⟩

/-- Modelled from the spec: `RouterT::change_connection_to` — redirect
connection j's destination endpoint. -/
def changeConnTo (g : RouterT) (j te tp : Nat) : RouterT :=
  let c := g.conns.getD j deadConn
  { g with conns := g.conns.set j { c with toE := te, toP := tp } }

/-- Modelled from the spec: `RouterT::change_connection_from` — redirect
connection j's source endpoint. -/
def changeConnFrom (g : RouterT) (j fe fp : Nat) : RouterT :=
  let c := g.conns.getD j deadConn
  { g with conns := g.conns.set j { c with fromE := fe, fromP := fp } }

/-- The inner `for j` loop of phase 2: scan indices, conditionally
rewriting the connection in place. -/
def connRewriteLoop (test : ConnectionT → Bool) (upd : ConnectionT → ConnectionT) :
    Nat → Nat → List ConnectionT → List ConnectionT
  | _, 0, l => l
  | j, n + 1, l =>
    connRewriteLoop test upd (j + 1) n
      (if test (l.getD j deadConn) then l.set j (upd (l.getD j deadConn)) else l)

/-- One step of phase 2 of `main` (translated from the source): if
connection i runs from one Align element into another, look at the
connections into and out of the upstream Align's port (the source reuses
the output-port number as an input-port number here); with exactly one
consumer below, retarget every connection aimed at the upstream Align to
the downstream Align's input; otherwise, with exactly one producer
above, re-source every connection aimed at the downstream Align from
that producer. -/
def phase2step (g : RouterT) (i : Nat) : RouterT :=
  let c := g.conns.getD i deadConn
  if c.live && g.etypeAt c.toE == "Align" && g.etypeAt c.fromE == "Align" then
    let above := findConnsTo g c.fromE c.fromP
    let below := findConnsFrom g c.fromE c.fromP
    if below.length == 1 then
      let conns2 := connRewriteLoop
        (fun c2 => c2.toE == c.fromE && c2.toP == c.fromP)
        (fun c2 => { c2 with toE := c.toE, toP := c.toP })
        0 g.conns.length g.conns
      { g with conns := conns2 }
    else if above.length == 1 then
      let conns2 := connRewriteLoop
        (fun c2 => c2.toE == c.toE && c2.toP == c.toP)
        (fun c2 => { c2 with fromE := (above.getD 0 (0, 0)).1, fromP := (above.getD 0 (0, 0)).2 })
        0 g.conns.length g.conns
      { g with conns := conns2 }
    else g
  else g

/-- Phase 2 of `main` (translated from the source): scan every
connection index once. -/
def phase2 (g : RouterT) : RouterT :=
  (List.range g.conns.length).foldl phase2step g

/-- Concrete graph refuting C5's branch condition: upstream Align U
(element 2) has two producers and two consumers; downstream Align D
(element 3) has exactly one producer. -/
def gC5 : RouterT :=
  ⟨[⟨"p1", "InfiniteSource", badA, 0, true⟩, ⟨"p2", "InfiniteSource", badA, 0, true⟩,
    ⟨"u", "Align", ⟨4, 0⟩, 0, true⟩, ⟨"d", "Align", ⟨4, 0⟩, 0, true⟩,
    ⟨"x", "Discard", badA, 0, true⟩],
   [⟨0, 0, 2, 0, true⟩, ⟨1, 0, 2, 0, true⟩, ⟨2, 0, 3, 0, true⟩, ⟨2, 0, 4, 0, true⟩]⟩

/-- Counterexample to C5 as stated: connection 2 of `gC5` is a live
Align-to-Align connection whose downstream adjuster has exactly one
upstream producer, yet phase 2 leaves the graph completely unchanged,
because the source's second branch tests the producers of the
upstream adjuster (here two), not of the downstream one. -/
theorem phase2_branch_cex :
    phase2 gC5 = gC5 ∧
    (gC5.conns.getD 2 deadConn).live = true ∧
    gC5.etypeAt 2 = "Align" ∧ gC5.etypeAt 3 = "Align" ∧
    (gC5.conns.getD 2 deadConn).fromE = 2 ∧ (gC5.conns.getD 2 deadConn).toE = 3 ∧
    (findConnsTo gC5 3 0).length = 1 ∧
    (findConnsFrom gC5 2 0).length ≠ 1 := by
  decide

theorem connRewriteLoop_eq_map (test : ConnectionT → Bool)
    (upd : ConnectionT → ConnectionT) :
    ∀ (l2 l1 : List ConnectionT),
    connRewriteLoop test upd l1.length l2.length (l1 ++ l2) =
      l1 ++ l2.map (fun c => if test c then upd c else c) := by
  intro l2
  induction l2 with
  | nil => intro l1; simp [connRewriteLoop]
  | cons c t ih =>
    intro l1
    show connRewriteLoop test upd l1.length (t.length + 1) (l1 ++ c :: t) = _
    unfold connRewriteLoop
    have hget : (l1 ++ c :: t).getD l1.length deadConn = c := by
      rw [List.getD_append_right _ _ _ _ le_rfl, Nat.sub_self]
      rfl
    rw [hget]
    cases ht : test c with
    | true =>
      rw [if_pos rfl]
      have hset : (l1 ++ c :: t).set l1.length (upd c) = (l1 ++ [upd c]) ++ t := by
        rw [List.set_append_right _ _ le_rfl, Nat.sub_self]
        simp
      rw [hset]
      have := ih (l1 ++ [upd c])
      rw [List.length_append, List.length_singleton] at this
      rw [this]
      simp [ht]
    | false =>
      rw [if_neg (by simp)]
      have heq : l1 ++ c :: t = (l1 ++ [c]) ++ t := by simp
      rw [heq]
      have := ih (l1 ++ [c])
      rw [List.length_append, List.length_singleton] at this
      rw [this]
      simp [ht]

theorem connRewriteLoop_eq_map0 (test : ConnectionT → Bool)
    (upd : ConnectionT → ConnectionT) (l : List ConnectionT) :
    connRewriteLoop test upd 0 l.length l =
      l.map (fun c => if test c then upd c else c) := by
  have := connRewriteLoop_eq_map test upd l []
  simpa using this

/-- The per-connection retargeting of phase 2's first branch. -/
def retargetConn (fe fp te tp : Nat) (c2 : ConnectionT) : ConnectionT :=
  if (c2.toE == fe && c2.toP == fp) = true then { c2 with toE := te, toP := tp }
  else c2

/-- The per-connection re-sourcing of phase 2's second branch. -/
def resourceConn (te tp fe fp : Nat) (c2 : ConnectionT) : ConnectionT :=
  if (c2.toE == te && c2.toP == tp) = true then { c2 with fromE := fe, fromP := fp }
  else c2

/-- C5 (amended): for every live connection linking the output of one
Align adjuster to the input of another, phase 2 splices one out as
follows: if the upstream adjuster has exactly one downstream consumer,
every connection aimed at the upstream adjuster is retargeted to the
downstream adjuster's input (bypassing the upstream adjuster, which
phase 5 later drops); otherwise, if the upstream adjuster — not the
downstream one, as the claim stated — has exactly one upstream
producer, every connection aimed at the downstream adjuster is
re-sourced to originate from that producer; otherwise the pair is left
alone. -/
theorem phase2_pair_rewrite (g : RouterT) (i : Nat)
    (hguard : ((g.conns.getD i deadConn).live &&
      g.etypeAt (g.conns.getD i deadConn).toE == "Align" &&
      g.etypeAt (g.conns.getD i deadConn).fromE == "Align") = true) :
    ((findConnsFrom g (g.conns.getD i deadConn).fromE
        (g.conns.getD i deadConn).fromP).length = 1 →
      phase2step g i = ⟨g.elements, g.conns.map
        (retargetConn (g.conns.getD i deadConn).fromE
          (g.conns.getD i deadConn).fromP
          (g.conns.getD i deadConn).toE (g.conns.getD i deadConn).toP)⟩) ∧
    ((findConnsFrom g (g.conns.getD i deadConn).fromE
        (g.conns.getD i deadConn).fromP).length ≠ 1 →
     (findConnsTo g (g.conns.getD i deadConn).fromE
        (g.conns.getD i deadConn).fromP).length = 1 →
      phase2step g i = ⟨g.elements, g.conns.map
        (resourceConn (g.conns.getD i deadConn).toE (g.conns.getD i deadConn).toP
          ((findConnsTo g (g.conns.getD i deadConn).fromE
            (g.conns.getD i deadConn).fromP).getD 0 (0, 0)).1
          ((findConnsTo g (g.conns.getD i deadConn).fromE
            (g.conns.getD i deadConn).fromP).getD 0 (0, 0)).2)⟩) ∧
    ((findConnsFrom g (g.conns.getD i deadConn).fromE
        (g.conns.getD i deadConn).fromP).length ≠ 1 →
     (findConnsTo g (g.conns.getD i deadConn).fromE
        (g.conns.getD i deadConn).fromP).length ≠ 1 →
      phase2step g i = g) := by
  refine ⟨?_, ?_, ?_⟩
  · intro hb1
    simp only [phase2step]
    rw [if_pos hguard, if_pos (by simp only [beq_iff_eq]; exact hb1),
      connRewriteLoop_eq_map0]
    rfl
  · intro hb1 ha1
    simp only [phase2step]
    rw [if_pos hguard, if_neg (by simp only [beq_iff_eq]; exact hb1),
      if_pos (by simp only [beq_iff_eq]; exact ha1), connRewriteLoop_eq_map0]
    rfl
  · intro hb1 ha1
    simp only [phase2step]
    rw [if_pos hguard, if_neg (by simp only [beq_iff_eq]; exact hb1),
      if_neg (by simp only [beq_iff_eq]; exact ha1)]

/-- Concrete graph for the C5 witness: a producer feeding an Align that
feeds another Align, the upstream one with a single consumer. -/
def gW5 : RouterT :=
  ⟨[⟨"p", "InfiniteSource", badA, 0, true⟩, ⟨"u", "Align", ⟨4, 0⟩, 0, true⟩,
    ⟨"d", "Align", ⟨4, 0⟩, 0, true⟩],
   [⟨0, 0, 1, 0, true⟩, ⟨1, 0, 2, 0, true⟩]⟩

/-- Witness for the amended C5: processing the Align-to-Align
connection of `gW5` retargets the producer directly to the downstream
Align. -/
theorem phase2_pair_rewrite_check :
    (((gW5.conns.getD 1 deadConn).live &&
      gW5.etypeAt (gW5.conns.getD 1 deadConn).toE == "Align" &&
      gW5.etypeAt (gW5.conns.getD 1 deadConn).fromE == "Align") = true ∧
     (findConnsFrom gW5 (gW5.conns.getD 1 deadConn).fromE
        (gW5.conns.getD 1 deadConn).fromP).length = 1) ∧
    phase2step gW5 1 = ⟨gW5.elements, gW5.conns.map
      (retargetConn (gW5.conns.getD 1 deadConn).fromE
        (gW5.conns.getD 1 deadConn).fromP
        (gW5.conns.getD 1 deadConn).toE (gW5.conns.getD 1 deadConn).toP)⟩ :=
  ⟨⟨by decide, by decide⟩,
   (phase2_pair_rewrite gW5 1 (by decide)).1 (by decide)⟩

/-- Modelled from the spec: `RouterT::add_connection` — add a live
connection. -/
def addConnection (g : RouterT) (fe fp te tp : Nat) : RouterT :=
  { g with conns := g.conns ++ [⟨fe, fp, te, tp, true⟩] }

/-- Modelled from the spec: `RouterT::kill_connection` — mark
connection i dead. -/
def killConnection (g : RouterT) (i : Nat) : RouterT :=
  let c := g.conns.getD i deadConn
  { g with conns := g.conns.set i { c with live := false } }

/-- The engine's `_ooffset` value for element i: the cumulative output
port count of the elements before it. -/
def osum (g : RouterT) (i : Nat) : Nat := ((List.range i).map g.noutputs).sum

/-- A flat read of the engine's `_oalign` vector at index k. -/
def oalFlat (s : RouterAlign) (k : Nat) : AlignmentT := s.oal.flatten.getD k badA

/-- One step of the phase-4 scan of `main` (translated from the
source): if connection i is live into an Align element, compare the
snapshot's have at the connection's source output (flat index
`_ooffset[fromE] + fromP`) with the snapshot's alignment at flat index
`_ooffset[toE]` (the Align's output 0); when compatible, connect the
source to every current destination of the Align's port and kill
connection i, recording the change. -/
def phase4step (g0 : RouterT) (s : RouterAlign) (p : RouterT × Bool) (i : Nat) :
    RouterT × Bool :=
  let gc := p.1
  let c := gc.conns.getD i deadConn
  if c.live && gc.etypeAt c.toE == "Align" then
    let hv := oalFlat s (osum g0 c.fromE + c.fromP)
    let wt := oalFlat s (osum g0 c.toE)
    if hv.compat wt then
      let dests := findConnsFrom gc c.toE c.toP
      let g1 := dests.foldl (fun gg d => addConnection gg c.fromE c.fromP d.1 d.2) gc
      (killConnection g1 i, true)
    else p
  else p

/-- One full pass of phase 4 (translated from the source): recompute a
converged have snapshot on the current graph, then scan the connection
indices present at pass start. -/
def phase4pass (tr : String → Traits) (fuel : Nat) (g : RouterT) :
    Option (RouterT × Bool) :=
  (haveFix tr fuel g).map (fun s =>
    (List.range g.conns.length).foldl (phase4step g s) (g, false))

/-- The walk of `remove_duplicate_connections`, carrying the endpoint
quadruples of the live connections already seen. -/
def dedupConns : List (Nat × Nat × Nat × Nat) → List ConnectionT → List ConnectionT
  | _, [] => []
  | seen, c :: t =>
    if c.live then
      if (c.fromE, c.fromP, c.toE, c.toP) ∈ seen then
        ⟨c.fromE, c.fromP, c.toE, c.toP, false⟩ :: dedupConns seen t
      else c :: dedupConns ((c.fromE, c.fromP, c.toE, c.toP) :: seen) t
    else c :: dedupConns seen t

/-- Modelled from the spec: `RouterT::remove_duplicate_connections` —
kill every later live duplicate of a live connection. -/
def removeDuplicateConns (g : RouterT) : RouterT :=
  { g with conns := dedupConns [] g.conns }

/-- The phase-4 `while (1)` loop of `main` (translated from the
source): run a pass; if it made no change, stop; otherwise compact
duplicate connections and repeat.  The outer fuel bounds the number of
passes; `none` when it runs out. -/
def phase4Loop (tr : String → Traits) (ifuel : Nat) : Nat → RouterT → Option RouterT
  | 0, _ => none
  | n + 1, g =>
    match phase4pass tr ifuel g with
    | none => none
    | some (g1, ch) =>
      if ch then phase4Loop tr ifuel n (removeDuplicateConns g1)
      else some g1

/-- A connection with the same endpoints, dead. -/
def deadified (c : ConnectionT) : ConnectionT := ⟨c.fromE, c.fromP, c.toE, c.toP, false⟩

/-- The reconnection built by phase 4: the redundant connection's
source feeding one of the Align's destinations. -/
def reconn (fe fp : Nat) (d : Nat × Nat) : ConnectionT := ⟨fe, fp, d.1, d.2, true⟩

theorem foldl_addConnection (fe fp : Nat) :
    ∀ (ds : List (Nat × Nat)) (gg : RouterT),
    ds.foldl (fun gg d => addConnection gg fe fp d.1 d.2) gg =
      ⟨gg.elements, gg.conns ++ ds.map (reconn fe fp)⟩ := by
  intro ds
  induction ds with
  | nil => intro gg; simp
  | cons d t ih =>
    intro gg
    rw [List.foldl_cons, ih]
    simp [addConnection, reconn]

theorem live_getD_lt (l : List ConnectionT) (i : Nat)
    (h : (l.getD i deadConn).live = true) : i < l.length := by
  by_contra hge
  rw [List.getD_eq_default _ _ (by omega)] at h
  cases h

theorem flatten_getD {α : Type} (d : α) :
    ∀ (L : List (List α)) (i p : Nat), i < L.length → p < (L.getD i []).length →
    L.flatten.getD (((L.take i).map List.length).sum + p) d =
      (L.getD i []).getD p d := by
  intro L
  induction L with
  | nil => intro i p h; simp at h
  | cons x t ih =>
    intro i p hi hp
    cases i with
    | zero =>
      simp only [List.take_zero, List.map_nil, List.sum_nil, Nat.zero_add]
      rw [List.flatten_cons, List.getD_append _ _ _ _ (by simpa using hp)]
      rfl
    | succ m =>
      rw [List.take_succ_cons, List.map_cons, List.sum_cons, List.flatten_cons,
        Nat.add_assoc, List.getD_append_right _ _ _ _ (Nat.le_add_right _ _),
        Nat.add_sub_cancel_left]
      exact ih m p (by simpa using hi) (by simpa using hp)

/-- The engine snapshot has per-element output slices sized to the
graph's output-port counts. -/
def oalShaped (g : RouterT) (s : RouterAlign) : Prop :=
  s.oal.length = g.elements.length ∧
  ∀ m, m < g.elements.length → (s.oal.getD m []).length = g.noutputs m

theorem take_map_length_eq_osum (g : RouterT) (s : RouterAlign)
    (hsh : oalShaped g s) :
    ∀ i, i ≤ g.elements.length →
    ((s.oal.take i).map List.length).sum = osum g i := by
  intro i
  induction i with
  | zero => intro _; simp [osum]
  | succ m ih =>
    intro hm
    have hmlt : m < g.elements.length := by omega
    have hmlt2 : m < s.oal.length := by rw [hsh.1]; exact hmlt
    rw [List.take_succ, List.map_append, List.sum_append]
    rw [ih (by omega)]
    unfold osum
    rw [List.range_succ, List.map_append, List.sum_append]
    have hsome : s.oal[m]? = some (s.oal.getD m []) := by
      rw [List.getElem?_eq_getElem hmlt2, List.getD_eq_getElem?_getD,
        List.getElem?_eq_getElem hmlt2]
      rfl
    rw [hsome]
    simp only [Option.toList_some, List.map_cons, List.map_nil, List.sum_cons,
      List.sum_nil, List.map_singleton, List.sum_singleton]
    rw [hsh.2 m hmlt]

theorem oalFlat_eq_oalAt (g : RouterT) (s : RouterAlign) (hsh : oalShaped g s)
    (i p : Nat) (hi : i < g.elements.length) (hp : p < g.noutputs i) :
    oalFlat s (osum g i + p) = oalAt s i p := by
  unfold oalFlat oalAt
  rw [← take_map_length_eq_osum g s hsh i (by omega)]
  exact flatten_getD badA s.oal i p (by rw [hsh.1]; exact hi)
    (by rw [hsh.2 i hi]; exact hp)

/-- C3: in the phase-4 scan, for every connection index i of the pass
whose entry is live with an Align destination: when the snapshot's
have at the connection's source output port is compatible with the
alignment at the Align's output slot, the step kills connection i,
adds a live connection from the source port to every port currently
downstream of the Align, and reports a change; when the test fails, or
the entry is not a live connection into an Align, the step leaves the
graph exactly as it was.  When the snapshot is shaped by the pass
graph and the Align has an output, the alignment tested is precisely
the adjuster's own output-0 alignment. -/
theorem phase4_redundant_skip (g0 : RouterT) (s : RouterAlign) (gc : RouterT)
    (ch : Bool) (i : Nat) :
    (((gc.conns.getD i deadConn).live &&
        gc.etypeAt (gc.conns.getD i deadConn).toE == "Align") = true →
      (((oalFlat s (osum g0 (gc.conns.getD i deadConn).fromE +
            (gc.conns.getD i deadConn).fromP)).compat
          (oalFlat s (osum g0 (gc.conns.getD i deadConn).toE)) = true →
        phase4step g0 s (gc, ch) i =
          (⟨gc.elements, gc.conns.set i (deadified (gc.conns.getD i deadConn)) ++
            (findConnsFrom gc (gc.conns.getD i deadConn).toE
              (gc.conns.getD i deadConn).toP).map
              (reconn (gc.conns.getD i deadConn).fromE
                (gc.conns.getD i deadConn).fromP)⟩, true)) ∧
       ((oalFlat s (osum g0 (gc.conns.getD i deadConn).fromE +
            (gc.conns.getD i deadConn).fromP)).compat
          (oalFlat s (osum g0 (gc.conns.getD i deadConn).toE)) = false →
        phase4step g0 s (gc, ch) i = (gc, ch)))) ∧
    (((gc.conns.getD i deadConn).live &&
        gc.etypeAt (gc.conns.getD i deadConn).toE == "Align") = false →
      phase4step g0 s (gc, ch) i = (gc, ch)) ∧
    (oalShaped g0 s → (gc.conns.getD i deadConn).toE < g0.elements.length →
      0 < g0.noutputs (gc.conns.getD i deadConn).toE →
      oalFlat s (osum g0 (gc.conns.getD i deadConn).toE) =
        oalAt s (gc.conns.getD i deadConn).toE 0) := by
  refine ⟨?_, ?_, ?_⟩
  · intro hguard
    constructor
    · intro hcompat
      have hlt : i < gc.conns.length := by
        apply live_getD_lt
        exact (Bool.and_eq_true _ _ ▸ hguard).1
      have hgetD : (gc.conns ++ (findConnsFrom gc (gc.conns.getD i deadConn).toE
          (gc.conns.getD i deadConn).toP).map
          (reconn (gc.conns.getD i deadConn).fromE
            (gc.conns.getD i deadConn).fromP)).getD i deadConn =
          gc.conns.getD i deadConn := List.getD_append _ _ _ _ hlt
      simp only [phase4step]
      rw [if_pos hguard, if_pos hcompat, foldl_addConnection]
      simp only [killConnection]
      rw [hgetD, List.set_append_left _ _ hlt]
      rfl
    · intro hcompat
      simp only [phase4step]
      rw [if_pos hguard, if_neg (by rw [hcompat]; exact Bool.false_ne_true)]
  · intro hguard
    simp only [phase4step]
    rw [if_neg (by rw [hguard]; exact Bool.false_ne_true)]
  · intro hsh hlt hout
    exact oalFlat_eq_oalAt g0 s hsh _ 0 hlt hout

/-- Concrete graph for the C3 witness: a generator feeding a redundant
Align that feeds a sink. -/
def gW3 : RouterT :=
  ⟨[⟨"s", "InfiniteSource", badA, 0, true⟩, ⟨"a", "Align", ⟨4, 0⟩, 0, true⟩,
    ⟨"d", "Discard", badA, 0, true⟩],
   [⟨0, 0, 1, 0, true⟩, ⟨1, 0, 2, 0, true⟩]⟩

/-- The converged have snapshot of `gW3`. -/
def sW3 : RouterAlign := ⟨[[], [⟨4, 0⟩], [⟨4, 0⟩]], [[⟨4, 0⟩], [⟨4, 0⟩], []]⟩

/-- Witness for C3: processing the redundant connection into the Align
of `gW3` kills it and reconnects the generator to the sink. -/
theorem phase4_redundant_skip_check :
    (((gW3.conns.getD 0 deadConn).live &&
      gW3.etypeAt (gW3.conns.getD 0 deadConn).toE == "Align") = true ∧
     (oalFlat sW3 (osum gW3 (gW3.conns.getD 0 deadConn).fromE +
        (gW3.conns.getD 0 deadConn).fromP)).compat
       (oalFlat sW3 (osum gW3 (gW3.conns.getD 0 deadConn).toE)) = true) ∧
    phase4step gW3 sW3 (gW3, false) 0 =
      (⟨gW3.elements, gW3.conns.set 0 (deadified (gW3.conns.getD 0 deadConn)) ++
        (findConnsFrom gW3 (gW3.conns.getD 0 deadConn).toE
          (gW3.conns.getD 0 deadConn).toP).map
          (reconn (gW3.conns.getD 0 deadConn).fromE
            (gW3.conns.getD 0 deadConn).fromP)⟩, true) :=
  ⟨⟨by decide, by decide⟩,
   ((phase4_redundant_skip gW3 sW3 gW3 false 0).1 (by decide)).1 (by decide)⟩

/-- The measure named by C4: the number of live connections into Align
elements whose source output's converged have alignment is compatible
with the alignment at the Align's output slot. -/
def redundantCount (tr : String → Traits) (fuel : Nat) (g : RouterT) : Option Nat :=
  (haveFix tr fuel g).map (fun s =>
    ((List.range g.conns.length).filter (fun i =>
      let c := g.conns.getD i deadConn
      c.live && g.etypeAt c.toE == "Align" &&
        (oalFlat s (osum g c.fromE + c.fromP)).compat
          (oalFlat s (osum g c.toE)))).length)

/-- Concrete graph refuting C4: a single Align connected to itself. -/
def gC4 : RouterT := ⟨[⟨"a", "Align", ⟨4, 0⟩, 0, true⟩], [⟨0, 0, 0, 0, true⟩]⟩

/-- Counterexample to C4 as stated: on the self-connected Align, a
full phase-4 pass reports a change but reproduces exactly the same
live connections after duplicate compaction, so the count of redundant
adjuster connections stays at 1 instead of strictly decreasing — and
since every iteration reproduces this state, the `while (1)` loop
never exits. -/
theorem phase4_measure_cex :
    redundantCount trivTr 6 gC4 = some 1 ∧
    (phase4pass trivTr 6 gC4).bind (fun r =>
      if r.2 then redundantCount trivTr 6 (removeDuplicateConns r.1) else none) =
      some 1 ∧
    (phase4pass trivTr 6 gC4).map (fun r =>
      decide ((removeDuplicateConns r.1).conns.filter (fun c => c.live) =
        gC4.conns.filter (fun c => c.live))) = some true := by
  refine ⟨by decide, by decide, by decide⟩

/-- C4 (amended): the phase-4 rewrite loop exits exactly after the
first full pass that makes no change, returning that pass's graph; a
changing pass is not guaranteed to decrease the count of redundant
adjuster connections, and the loop is not guaranteed to terminate on
every well-formed input. -/
theorem phase4_loop_exit (tr : String → Traits) (ifuel fuel : Nat) (g g1 : RouterT)
    (h : phase4pass tr ifuel g = some (g1, false)) :
    phase4Loop tr ifuel (fuel + 1) g = some g1 := by
  unfold phase4Loop
  rw [h]
  simp

/-- Concrete graph for the C4 witness: no adjusters, so the very first
pass changes nothing. -/
def gW4 : RouterT :=
  ⟨[⟨"s", "InfiniteSource", badA, 0, true⟩, ⟨"d", "Discard", badA, 0, true⟩],
   [⟨0, 0, 1, 0, true⟩]⟩

/-- Witness for the amended C4 on `gW4`. -/
theorem phase4_loop_exit_check :
    phase4pass trivTr 4 gW4 = some (gW4, false) ∧
    phase4Loop trivTr 4 3 gW4 = some gW4 :=
  ⟨by decide, phase4_loop_exit trivTr 4 2 gW4 gW4 (by decide)⟩

/-- Phase 3 of `main` (translated from the source): recompute a
converged have snapshot on the graph as mutated so far, derive the
adjustment snapshot by one `adjust` pass over a copy (not a fresh want
fixpoint), and rerun the insertion loop over the original elements'
input ports. -/
def phase3 (tr : String → Traits) (fuel : Nat) (ne0 : Nat) (g : RouterT)
    (anon : Nat) : Option (RouterT × Nat × Nat) :=
  (haveFix tr fuel g).map (fun ral =>
    insertAligns (fun i j => ialAt ral i j)
      (fun i j => ialAt (RouterAlign.adjust g ral) i j)
      (portsUpTo g ne0) g anon 0)

/-- The phase-5 kill scan (translated from the source): walk the
elements, killing live Aligns with no input or no output (counting
them) and live AlignmentInfo elements. -/
def markDead (g : RouterT) : Nat → List ElementT → List ElementT × Nat
  | _, [] => ([], 0)
  | i, e :: t =>
    let r := markDead g (i + 1) t
    if e.live && e.etype == "Align" &&
        (g.ninputs i == 0 || g.noutputs i == 0) then
      (⟨e.name, e.etype, e.acfg, e.ncfg, false⟩ :: r.1, r.2 + 1)
    else if e.live && e.etype == "AlignmentInfo" then
      (⟨e.name, e.etype, e.acfg, e.ncfg, false⟩ :: r.1, r.2)
    else (e :: r.1, r.2)

/-- The number of live elements before index i, the new index of a
surviving element after compaction. -/
def liveIndexBefore (els : List ElementT) (i : Nat) : Nat :=
  ((els.take i).filter (fun e => e.live)).length

/-- Modelled from the spec: `RouterT::remove_dead_elements` — drop the
dead elements, renumber the survivors, and drop the connections
touching dead elements. -/
def removeDeadElements (g : RouterT) : RouterT :=
  ⟨g.elements.filter (fun e => e.live),
   g.conns.filterMap (fun c =>
     if c.live && (g.elements.getD c.fromE dElt).live &&
        (g.elements.getD c.toE dElt).live then
       some ⟨liveIndexBefore g.elements c.fromE, c.fromP,
         liveIndexBefore g.elements c.toE, c.toP, true⟩
     else none)⟩

/-- Phase 5 of `main` (translated from the source): kill the unused
Aligns and the old AlignmentInfos, compact, and report how many Aligns
were killed (each decrements `num_aligns_added`). -/
def phase5 (g : RouterT) : RouterT × Nat :=
  let r := markDead g 0 g.elements
  (removeDeadElements ⟨r.1, g.conns⟩, r.2)

/-- The annotation record collected by phase 6 for every live element
whose type metadata carries the alignment-sensitivity flag and that
has at least one input: its name with the converged have alignment of
each input port. -/
def annotationsList (tr : String → Traits) (g : RouterT) (s : RouterAlign) :
    List (String × List AlignmentT) :=
  (List.range g.elements.length).foldl (fun sa i =>
    if (g.elements.getD i dElt).live &&
        (tr (g.elements.getD i dElt).etype).alignFlag &&
        decide (0 < g.ninputs i) then
      sa ++ [((g.elements.getD i dElt).name, s.ial.getD i [])]
    else sa) []

/-- The synthetic AlignmentInfo element of phase 6. -/
def infoElt (nm : String) : ElementT := ⟨nm, "AlignmentInfo", badA, 0, true⟩

/-- Phase 6 of `main` (translated from the source): recompute a final
converged have snapshot, collect the annotation list, and add one new
AlignmentInfo element carrying it when the list is nonempty. -/
def phase6 (tr : String → Traits) (fuel : Nat) (g : RouterT) :
    Option (RouterT × List (String × List AlignmentT)) :=
  (haveFix tr fuel g).map (fun s =>
    let annos := annotationsList tr g s
    if annos.isEmpty then (g, annos)
    else (⟨g.elements ++ [infoElt ("AlignmentInfo@click_align@" ++
      toString (g.elements.length + 1))], g.conns⟩, annos))

/-- The whole rewrite pipeline of `main` (translated from the source):
the anonymizer scan, phases 1 through 6, the running net-adjuster
counter, and the advisory-warning condition `num_aligns_added > 0`. -/
def clickAlign (tr : String → Traits) (fuel : Nat) (g : RouterT) :
    Option (RouterT × Int × Bool) := do
  let ne0 := g.elements.length
  let anon0 := initAnon g (g.elements.length + 1) (ne0 + 1)
  let (g1, anon1, n1) ← phase1 tr fuel g anon0
  let g2 := phase2 g1
  let (g3, _, n3) ← phase3 tr fuel ne0 g2 anon1
  let g4 ← phase4Loop tr fuel fuel g3
  let (g5, d) := phase5 g4
  let (g6, _) ← phase6 tr fuel g5
  let num : Int := (n1 : Int) + (n3 : Int) - (d : Int)
  return (g6, num, decide (0 < num))

/-- The failing input for C7: the anonymizer scan of `main` checks
names only once, starting at `original_nelements + 1`, stopping at the
first free name; it never rechecks while the insertion loop keeps
incrementing. -/
def gC7 : RouterT :=
  ⟨[⟨"s1", "InfiniteSource", badA, 0, true⟩, ⟨"t1", "ToHost", badA, 0, true⟩,
    ⟨"s2", "InfiniteSource", badA, 0, true⟩, ⟨"t2", "ToHost", badA, 0, true⟩,
    ⟨"Align@click_align@7", "Idle", badA, 0, true⟩],
   [⟨0, 0, 1, 0, true⟩, ⟨2, 0, 3, 0, true⟩]⟩

/-- C7 evaluated at the failing input: the scan stops at anonymizer 6
(the first free name), phase 1 then performs two insertions named
`Align@click_align@6` and `Align@click_align@7`, and the second of
those names is already borne by an element present in the graph — the
inserted adjuster's name collides, contradicting the claim. -/
theorem aligner_name_collision :
    initAnon gC7 (gC7.elements.length + 1) (gC7.elements.length + 1) = 6 ∧
    (phase1 trivTr 6 gC7 6).map (fun r =>
      (r.1.elements.drop 5).map (fun e => e.name)) =
      some [aligner_name 6, aligner_name 7] ∧
    aligner_name 7 ∈ gC7.elements.map (fun e => e.name) := by
  refine ⟨by decide, by decide, by decide⟩

/-- The graph refuting C9: its only element is unflagged, so the
annotation list is empty and no AlignmentInfo element is added. -/
def gC9 : RouterT := ⟨[⟨"i", "Idle", badA, 0, true⟩], []⟩

/-- Counterexample to C9 as stated: phase 6 on `gC9` returns the graph
unchanged — no new AlignmentInfo element is added when no element
qualifies, although the claim says one new annotation element carrying
the list is added to the graph. -/
theorem annotation_empty_cex :
    phase6 trivTr 4 gC9 = some (gC9, []) ∧
    (phase6 trivTr 4 gC9).map (fun r => r.1.elements.length) = some 1 := by
  refine ⟨by decide, by decide⟩

theorem foldl_ite_append {α β : Type} (p : α → Bool) (v : α → β) :
    ∀ (l : List α) (acc : List β),
    l.foldl (fun sa a => if p a then sa ++ [v a] else sa) acc =
      acc ++ l.filterMap (fun a => if p a then some (v a) else none) := by
  intro l
  induction l with
  | nil => intro acc; simp
  | cons a t ih =>
    intro acc
    rw [List.foldl_cons, List.filterMap_cons]
    cases hp : p a with
    | true =>
      rw [if_pos rfl, if_pos rfl, ih]
      simp
    | false =>
      rw [if_neg (by simp), if_neg (by simp), ih]

/-- C9 (amended): after the final converged have snapshot, the
annotation list contains exactly the live elements whose type metadata
carries the alignment-sensitivity flag and that have at least one
input, each with the converged have alignment slice of its input
ports; one new AlignmentInfo element carrying the list is added if and
only if the list is nonempty. -/
theorem phase6_annotations (tr : String → Traits) (fuel : Nat) (g g6 : RouterT)
    (annos : List (String × List AlignmentT)) (s : RouterAlign)
    (hfix : haveFix tr fuel g = some s)
    (h6 : phase6 tr fuel g = some (g6, annos)) :
    annos = (List.range g.elements.length).filterMap (fun i =>
      if (g.elements.getD i dElt).live &&
          (tr (g.elements.getD i dElt).etype).alignFlag &&
          decide (0 < g.ninputs i) then
        some ((g.elements.getD i dElt).name, s.ial.getD i [])
      else none) ∧
    (annos = [] → g6 = g) ∧
    (annos ≠ [] → g6 = ⟨g.elements ++ [infoElt ("AlignmentInfo@click_align@" ++
      toString (g.elements.length + 1))], g.conns⟩) := by
  unfold phase6 at h6
  rw [hfix] at h6
  simp only [Option.map_some', Option.some.injEq] at h6
  have hannos : annotationsList tr g s = (List.range g.elements.length).filterMap
      (fun i =>
        if (g.elements.getD i dElt).live &&
            (tr (g.elements.getD i dElt).etype).alignFlag &&
            decide (0 < g.ninputs i) then
          some ((g.elements.getD i dElt).name, s.ial.getD i [])
        else none) := by
    unfold annotationsList
    rw [foldl_ite_append (fun i => (g.elements.getD i dElt).live &&
        (tr (g.elements.getD i dElt).etype).alignFlag &&
        decide (0 < g.ninputs i))
      (fun i => ((g.elements.getD i dElt).name, s.ial.getD i []))]
    rfl
  by_cases he : (annotationsList tr g s).isEmpty
  · rw [if_pos he] at h6
    obtain ⟨rfl, rfl⟩ := Prod.mk.injEq _ _ _ _ ▸ h6
    refine ⟨hannos, fun _ => rfl, fun hne => ?_⟩
    exact absurd (List.isEmpty_iff.mp he) hne
  · rw [if_neg he] at h6
    obtain ⟨rfl, rfl⟩ := Prod.mk.injEq _ _ _ _ ▸ h6
    refine ⟨hannos, fun hempty => ?_, fun _ => rfl⟩
    exact absurd (List.isEmpty_iff.mpr hempty) he

/-- The traits table for the C9 witness: only Classifier carries the
alignment-sensitivity flag. -/
def trA : String → Traits := fun nm => ⟨fun _ _ => true, nm == "Classifier"⟩

/-- Concrete graph for the C9 witness: a generator feeding a flagged
Classifier. -/
def gW9 : RouterT :=
  ⟨[⟨"f", "FromDevice", badA, 0, true⟩, ⟨"c", "Classifier", badA, 0, true⟩],
   [⟨0, 0, 1, 0, true⟩]⟩

/-- Witness for the amended C9 on `gW9`: the annotation list records
exactly the Classifier with its converged input alignment, and the
AlignmentInfo element is added. -/
theorem phase6_annotations_check :
    (haveFix trA 5 gW9 = some ⟨[[], [⟨4, 2⟩]], [[⟨4, 2⟩], []]⟩ ∧
     phase6 trA 5 gW9 = some (⟨gW9.elements ++
       [infoElt "AlignmentInfo@click_align@3"], gW9.conns⟩,
       [("c", [⟨4, 2⟩])])) ∧
    ([("c", [⟨4, 2⟩])] = (List.range gW9.elements.length).filterMap (fun i =>
      if (gW9.elements.getD i dElt).live &&
          (trA (gW9.elements.getD i dElt).etype).alignFlag &&
          decide (0 < gW9.ninputs i) then
        some ((gW9.elements.getD i dElt).name,
          (⟨[[], [⟨4, 2⟩]], [[⟨4, 2⟩], []]⟩ : RouterAlign).ial.getD i [])
      else none) ∧
     (([("c", [⟨4, 2⟩])] : List (String × List AlignmentT)) ≠ [] →
      (⟨gW9.elements ++ [infoElt "AlignmentInfo@click_align@3"], gW9.conns⟩ :
        RouterT) = ⟨gW9.elements ++ [infoElt ("AlignmentInfo@click_align@" ++
        toString (gW9.elements.length + 1))], gW9.conns⟩)) :=
  ⟨⟨by decide, by decide⟩,
   (phase6_annotations trA 5 gW9
     ⟨gW9.elements ++ [infoElt "AlignmentInfo@click_align@3"], gW9.conns⟩
     [("c", [⟨4, 2⟩])] ⟨[[], [⟨4, 2⟩]], [[⟨4, 2⟩], []]⟩
     (by decide) (by decide)).1,
   ((phase6_annotations trA 5 gW9
     ⟨gW9.elements ++ [infoElt "AlignmentInfo@click_align@3"], gW9.conns⟩
     [("c", [⟨4, 2⟩])] ⟨[[], [⟨4, 2⟩]], [[⟨4, 2⟩], []]⟩
     (by decide) (by decide)).2.2)⟩

/-- The number of live Align elements in an element list. -/
def aCountL (l : List ElementT) : Nat :=
  (l.filter (fun e => e.live && e.etype == "Align")).length

/-- The number of live Align elements in the graph. -/
def aCount (g : RouterT) : Nat := aCountL g.elements

theorem aCount_insertBefore (g : RouterT) (nm : String) (w : AlignmentT)
    (i j : Nat) :
    aCount (insertBefore g (alignElt nm w) i j) = aCount g + 1 := by
  unfold aCount aCountL insertBefore
  rw [List.filter_append, List.length_append]
  rfl

theorem insertAligns_aCount (hv wt : Nat → Nat → AlignmentT) :
    ∀ (ps : List (Nat × Nat)) (g : RouterT) (anon cnt : Nat),
    aCount (insertAligns hv wt ps g anon cnt).1 + cnt =
      aCount g + (insertAligns hv wt ps g anon cnt).2.2 := by
  intro ps
  induction ps with
  | nil => intro g anon cnt; simp [insertAligns]
  | cons p ps ih =>
    intro g anon cnt
    obtain ⟨a, b⟩ := p
    by_cases hcond : ((hv a b).compat (wt a b) || (wt a b).bad) = true
    · simp only [insertAligns, if_pos hcond]
      exact ih g anon cnt
    · simp only [insertAligns, if_neg hcond]
      have h1 := ih (insertBefore g (alignElt (aligner_name anon) (wt a b)) a b)
        (anon + 1) (cnt + 1)
      rw [aCount_insertBefore] at h1
      omega

theorem phase2step_elements (g : RouterT) (i : Nat) :
    (phase2step g i).elements = g.elements := by
  simp only [phase2step]
  repeat' split
  all_goals rfl

theorem phase2_elements (g : RouterT) :
    (phase2 g).elements = g.elements := by
  unfold phase2
  generalize List.range g.conns.length = l
  induction l generalizing g with
  | nil => rfl
  | cons a t ih => rw [List.foldl_cons, ih, phase2step_elements]

theorem phase4step_elements (g0 : RouterT) (s : RouterAlign) (p : RouterT × Bool)
    (i : Nat) : (phase4step g0 s p i).1.elements = p.1.elements := by
  simp only [phase4step]
  split
  · split
    · rw [foldl_addConnection]
      rfl
    · rfl
  · rfl

theorem phase4pass_elements (tr : String → Traits) (fuel : Nat) (g g1 : RouterT)
    (ch : Bool) (h : phase4pass tr fuel g = some (g1, ch)) :
    g1.elements = g.elements := by
  unfold phase4pass at h
  cases hs : haveFix tr fuel g with
  | none => rw [hs] at h; cases h
  | some s =>
    rw [hs] at h
    simp only [Option.map_some', Option.some.injEq] at h
    have hfold : ∀ (l : List Nat) (p : RouterT × Bool),
        ((l.foldl (phase4step g s) p).1.elements = p.1.elements) := by
      intro l
      induction l with
      | nil => intro p; rfl
      | cons a t ihl =>
        intro p
        rw [List.foldl_cons, ihl, phase4step_elements]
    have := hfold (List.range g.conns.length) (g, false)
    rw [h] at this
    exact this

theorem phase4Loop_elements (tr : String → Traits) (ifuel : Nat) :
    ∀ (fuel : Nat) (g g4 : RouterT), phase4Loop tr ifuel fuel g = some g4 →
    g4.elements = g.elements := by
  intro fuel
  induction fuel with
  | zero => intro g g4 h; cases h
  | succ n ih =>
    intro g g4 h
    unfold phase4Loop at h
    cases hp : phase4pass tr ifuel g with
    | none => rw [hp] at h; cases h
    | some r =>
      obtain ⟨g1, ch⟩ := r
      rw [hp] at h
      cases ch
      · simp only [if_neg (Bool.false_ne_true), Option.some.injEq] at h
        rw [← h]
        exact phase4pass_elements tr ifuel g g1 false hp
      · simp only [if_pos rfl] at h
        have h1 := ih (removeDuplicateConns g1) g4 h
        have h2 : (removeDuplicateConns g1).elements = g1.elements := rfl
        rw [h1, h2]
        exact phase4pass_elements tr ifuel g g1 true hp

theorem markDead_aCount (g : RouterT) : ∀ (l : List ElementT) (i : Nat),
    aCountL (markDead g i l).1 + (markDead g i l).2 = aCountL l := by
  intro l
  induction l with
  | nil => intro i; rfl
  | cons e t ih =>
    intro i
    unfold markDead
    by_cases h1 : (e.live && e.etype == "Align" &&
        (g.ninputs i == 0 || g.noutputs i == 0)) = true
    · rw [if_pos h1]
      have hpred : (e.live && e.etype == "Align") = true := by
        simp only [Bool.and_eq_true] at h1 ⊢
        exact h1.1
      have hkill : aCountL (⟨e.name, e.etype, e.acfg, e.ncfg, false⟩ ::
          (markDead g (i + 1) t).1) = aCountL (markDead g (i + 1) t).1 := by
        unfold aCountL
        rw [List.filter_cons]
        simp
      have hkeep : aCountL (e :: t) = aCountL t + 1 := by
        unfold aCountL
        rw [List.filter_cons, if_pos hpred]
        simp [Nat.add_comm]
      rw [hkill, hkeep]
      have := ih (i + 1)
      omega
    · rw [if_neg h1]
      by_cases h2 : (e.live && e.etype == "AlignmentInfo") = true
      · rw [if_pos h2]
        have hpred : (e.live && e.etype == "Align") = false := by
          simp only [Bool.and_eq_true, beq_iff_eq] at h2
          simp only [Bool.and_eq_false_iff]
          right
          rw [h2.2]
          decide
        have hkill : aCountL (⟨e.name, e.etype, e.acfg, e.ncfg, false⟩ ::
            (markDead g (i + 1) t).1) = aCountL (markDead g (i + 1) t).1 := by
          unfold aCountL
          rw [List.filter_cons]
          simp
        have hkeep : aCountL (e :: t) = aCountL t := by
          unfold aCountL
          rw [List.filter_cons, if_neg (by rw [hpred]; exact Bool.false_ne_true)]
        rw [hkill, hkeep]
        exact ih (i + 1)
      · rw [if_neg h2]
        have hsame : ∀ (m : List ElementT), aCountL (e :: m) =
            aCountL m + (if (e.live && e.etype == "Align") = true then 1 else 0) := by
          intro m
          unfold aCountL
          rw [List.filter_cons]
          by_cases hp : (e.live && e.etype == "Align") = true
          · rw [if_pos hp, if_pos hp]
            simp [Nat.add_comm]
          · rw [if_neg hp, if_neg hp]
            omega
        rw [hsame, hsame]
        have := ih (i + 1)
        omega

theorem aCountL_filter_live (l : List ElementT) :
    aCountL (l.filter (fun e => e.live)) = aCountL l := by
  unfold aCountL
  rw [List.filter_filter]
  congr 1
  apply List.filter_congr
  intro e _
  cases he : e.live <;> simp [he]

theorem phase5_aCount (g : RouterT) :
    aCount (phase5 g).1 + (phase5 g).2 = aCount g := by
  unfold phase5 removeDeadElements aCount
  have h1 := markDead_aCount g g.elements 0
  have h2 := aCountL_filter_live (markDead g 0 g.elements).1
  simp only []
  omega

theorem phase6_aCount (tr : String → Traits) (fuel : Nat) (g g6 : RouterT)
    (annos : List (String × List AlignmentT))
    (h : phase6 tr fuel g = some (g6, annos)) : aCount g6 = aCount g := by
  unfold phase6 at h
  cases hs : haveFix tr fuel g with
  | none => rw [hs] at h; cases h
  | some s =>
    rw [hs] at h
    simp only [Option.map_some', Option.some.injEq] at h
    by_cases he : (annotationsList tr g s).isEmpty
    · rw [if_pos he] at h
      obtain ⟨rfl, -⟩ := Prod.mk.injEq _ _ _ _ ▸ h
      rfl
    · rw [if_neg he] at h
      obtain ⟨rfl, -⟩ := Prod.mk.injEq _ _ _ _ ▸ h
      show aCountL (g.elements ++ [infoElt _]) = aCountL g.elements
      unfold aCountL
      rw [List.filter_append, List.length_append]
      rfl

theorem phase1_aCount (tr : String → Traits) (fuel : Nat) (g : RouterT)
    (anon : Nat) (g1 : RouterT) (anon1 n1 : Nat)
    (h : phase1 tr fuel g anon = some (g1, anon1, n1)) :
    aCount g1 = aCount g + n1 := by
  unfold phase1 at h
  cases hh : haveFix tr fuel g with
  | none => rw [hh] at h; cases h
  | some ral =>
    cases hw : wantFix tr fuel g with
    | none => rw [hh, hw] at h; cases h
    | some w =>
      rw [hh, hw] at h
      simp only [Option.some.injEq] at h
      have hc := insertAligns_aCount (fun i j => ialAt ral i j)
        (fun i j => ialAt w i j) (portsUpTo g g.elements.length) g anon 0
      rw [h] at hc
      simpa using hc

theorem phase3_aCount (tr : String → Traits) (fuel ne0 : Nat) (g : RouterT)
    (anon : Nat) (g3 : RouterT) (anon3 n3 : Nat)
    (h : phase3 tr fuel ne0 g anon = some (g3, anon3, n3)) :
    aCount g3 = aCount g + n3 := by
  unfold phase3 at h
  cases hh : haveFix tr fuel g with
  | none => rw [hh] at h; cases h
  | some ral =>
    rw [hh] at h
    simp only [Option.map_some', Option.some.injEq] at h
    have hc := insertAligns_aCount (fun i j => ialAt ral i j)
      (fun i j => ialAt (RouterAlign.adjust g ral) i j) (portsUpTo g ne0) g anon 0
    rw [h] at hc
    simpa using hc

/-- C8: whenever the pipeline completes, the tracked counter
`num_aligns_added` equals the number of live Align elements in the
resulting graph minus the number in the input graph, and the advisory
warning is emitted exactly when this count is positive. -/
theorem net_aligns_added (tr : String → Traits) (fuel : Nat) (g g' : RouterT)
    (num : Int) (warn : Bool)
    (h : clickAlign tr fuel g = some (g', num, warn)) :
    (aCount g' : Int) - (aCount g : Int) = num ∧ (warn = true ↔ 0 < num) := by
  unfold clickAlign at h
  cases hp1 : phase1 tr fuel g
      (initAnon g (g.elements.length + 1) (g.elements.length + 1)) with
  | none =>
    simp only [hp1, Option.bind_eq_bind, Option.none_bind] at h
    cases h
  | some r1 =>
    obtain ⟨g1, anon1, n1⟩ := r1
    simp only [hp1, Option.bind_eq_bind, Option.some_bind] at h
    cases hp3 : phase3 tr fuel g.elements.length (phase2 g1) anon1 with
    | none =>
      simp only [hp3, Option.none_bind] at h
      cases h
    | some r3 =>
      obtain ⟨g3, anon3, n3⟩ := r3
      simp only [hp3, Option.some_bind] at h
      cases hp4 : phase4Loop tr fuel fuel g3 with
      | none =>
        simp only [hp4, Option.none_bind] at h
        cases h
      | some g4 =>
        simp only [hp4, Option.some_bind] at h
        cases hp6 : phase6 tr fuel (phase5 g4).1 with
        | none =>
          simp only [hp6, Option.none_bind] at h
          cases h
        | some r6 =>
          obtain ⟨g6, annos⟩ := r6
          simp only [hp6, Option.some_bind, Option.pure_def,
            Option.some.injEq, Prod.mk.injEq] at h
          obtain ⟨hg, hnum, hwarn⟩ := h
          have e1 : aCount g1 = aCount g + n1 :=
            phase1_aCount tr fuel g _ g1 anon1 n1 hp1
          have e2 : aCount (phase2 g1) = aCount g1 := by
            unfold aCount
            rw [phase2_elements]
          have e3 : aCount g3 = aCount (phase2 g1) + n3 :=
            phase3_aCount tr fuel g.elements.length (phase2 g1) anon1 g3 anon3
              n3 hp3
          have e4 : aCount g4 = aCount g3 := by
            unfold aCount
            rw [phase4Loop_elements tr fuel fuel g3 g4 hp4]
          have e5 := phase5_aCount g4
          have e6 : aCount g6 = aCount (phase5 g4).1 :=
            phase6_aCount tr fuel (phase5 g4).1 g6 annos hp6
          constructor
          · rw [← hg, ← hnum, e6]
            omega
          · rw [← hwarn, ← hnum]
            constructor
            · intro hd
              exact of_decide_eq_true hd
            · intro hlt
              exact decide_eq_true hlt

/-- The result graph of the full pipeline on `gW1`. -/
def gF8 : RouterT :=
  ⟨[⟨"s", "InfiniteSource", badA, 0, true⟩, ⟨"t", "ToHost", badA, 0, true⟩,
    ⟨"Align@click_align@3", "Align", ⟨4, 2⟩, 0, true⟩],
   [⟨0, 0, 2, 0, true⟩, ⟨2, 0, 1, 0, true⟩]⟩

/-- Witness for C8: the pipeline on `gW1` nets one adjuster and warns. -/
theorem net_aligns_added_check :
    clickAlign trivTr 8 gW1 = some (gF8, 1, true) ∧
    ((aCount gF8 : Int) - (aCount gW1 : Int) = 1 ∧ (true = true ↔ (0 : Int) < 1)) :=
  ⟨by decide, net_aligns_added trivTr 8 gW1 gF8 1 true (by decide)⟩

/-- C1: in phase 1, for every input port (i, j) of an original
(pre-rewrite) element, given the converged have and want snapshots of
the unmodified graph, a new Align adjuster configured to exactly the
converged want value is created and spliced immediately upstream of
the port — the port's upstream connections become exactly the new
element's output 0, whose input receives exactly the port's original
upstream connections — if and only if `compatible(have, want)` fails
and want is not bad; when the test passes or want is bad, the port's
upstream connections are left exactly as they were (no element is
inserted there). -/
theorem phase1_insert_iff (tr : String → Traits) (fuel : Nat) (g : RouterT)
    (anon i j : Nat) (g1 : RouterT) (anon1 n1 : Nat) (ral want_ral : RouterAlign)
    (hwf : connsWF g)
    (hh : haveFix tr fuel g = some ral)
    (hw : wantFix tr fuel g = some want_ral)
    (hp : (i, j) ∈ portsUpTo g g.elements.length)
    (h1 : phase1 tr fuel g anon = some (g1, anon1, n1)) :
    (((ialAt ral i j).compat (ialAt want_ral i j) ||
        (ialAt want_ral i j).bad) = true →
      findConnsTo g1 i j = findConnsTo g i j) ∧
    (((ialAt ral i j).compat (ialAt want_ral i j) ||
        (ialAt want_ral i j).bad) = false →
      ∃ k nm, g.elements.length ≤ k ∧ k < g1.elements.length ∧
        g1.elements.getD k dElt = alignElt nm (ialAt want_ral i j) ∧
        findConnsTo g1 i j = [(k, 0)] ∧
        findConnsTo g1 k 0 = findConnsTo g i j) := by
  unfold phase1 at h1
  rw [hh, hw] at h1
  simp only [Option.some.injEq] at h1
  have hg1 : g1 = (insertAligns (fun a b => ialAt ral a b)
      (fun a b => ialAt want_ral a b)
      (portsUpTo g g.elements.length) g anon 0).1 := by
    rw [h1]
  subst hg1
  exact insertAligns_spec (fun a b => ialAt ral a b) (fun a b => ialAt want_ral a b)
    g.elements.length (portsUpTo g g.elements.length) g anon 0 i j
    (portsUpTo_nodup g _)
    (fun q hq => by
      obtain ⟨qa, qb⟩ := q
      exact ((portsUpTo_mem g _ qa qb).mp hq).1)
    le_rfl hwf hp

/-- The converged have snapshot of `gW1`. -/
def ralW1 : RouterAlign := ⟨[[], [⟨4, 0⟩]], [[⟨4, 0⟩], []]⟩

/-- The converged want snapshot of `gW1`. -/
def wralW1 : RouterAlign := ⟨[[], [⟨4, 2⟩]], [[⟨4, 2⟩], []]⟩

/-- Witness for C1: phase 1 on `gW1` splices an adjuster configured to
the converged want (4, 2) upstream of the consumer's incompatible
port. -/
theorem phase1_insert_iff_check :
    (connsWF gW1 ∧ haveFix trivTr 6 gW1 = some ralW1 ∧
     wantFix trivTr 6 gW1 = some wralW1 ∧
     (1, 0) ∈ portsUpTo gW1 gW1.elements.length ∧
     phase1 trivTr 6 gW1 3 = some (gF8, 4, 1)) ∧
    (((ialAt ralW1 1 0).compat (ialAt wralW1 1 0) ||
        (ialAt wralW1 1 0).bad) = false →
      ∃ k nm, gW1.elements.length ≤ k ∧ k < gF8.elements.length ∧
        gF8.elements.getD k dElt = alignElt nm (ialAt wralW1 1 0) ∧
        findConnsTo gF8 1 0 = [(k, 0)] ∧
        findConnsTo gF8 k 0 = findConnsTo gW1 1 0) :=
  ⟨⟨by unfold connsWF; decide, by decide, by decide, by decide, by decide⟩,
   (phase1_insert_iff trivTr 6 gW1 3 1 0 gF8 4 1 ralW1 wralW1
     (by unfold connsWF; decide) (by decide) (by decide) (by decide)
     (by decide)).2⟩
